import Mathlib

/-!
Shallow embedding of the search/index core of the `imdb-rename` repository
(`imdb-index` crate), together with proofs about the properties claimed in
its specification.

Conventions used throughout this development:

* Rust machine integers are modelled as `Nat` with explicit bounds and
  explicit `% 2^w` arithmetic where overflow matters.
* Byte strings are modelled as `List Nat` (each entry a byte value) and
  Rust `&str`/`String` values as `List Char` (Unicode codepoints), matching
  the codepoint-oriented processing of the source.
* Fallible Rust functions returning `Result` are modelled as `Option`
  valued functions; `none` stands for the error (or panic) case.
* `f64` scores are modelled as exact rationals `ℚ` wherever the source only
  copies, compares, adds or divides scores; the one claim that is genuinely
  about the floating-point classification of scores (`NaN`/finiteness) uses
  a dedicated tagged type `F64` instead.
-/

namespace ImdbIndex

/-- The left brace character, kept as a named constant. -/
def lbrace : Char := Char.ofNat 123

/-- The right brace character, kept as a named constant. -/
def rbrace : Char := Char.ofNat 125

/-- Shorthand turning a string literal into the list of its codepoints. -/
def str (s : String) : List Char := s.toList

/-! ## Window ngrams (`NgramType::iter_window`, src/imdb-index/src/index/names.rs)

The Rust implementation zips the `char_indices` iterator of the text with a
copy of itself skipping `end_skip` positions, where
`end_skip = text.chars().take(size).count().saturating_sub(1)`, and emits the
slice from the start of the first codepoint to the end of the second one. In
codepoint terms the pair at position `s` yields the codepoints
`s .. s + end_skip` inclusive, and the zip produces
`length - end_skip` pairs. -/

/-- Window ngram extraction over a list of codepoints, translated from
`NgramType::iter_window`. -/
def iter_window (size : Nat) (text : List Char) : List (List Char) :=
  if size = 0 then []
  else
    let end_skip := (min size text.length) - 1
    (List.range (text.length - end_skip)).map
      (fun s => (text.drop s).take (end_skip + 1))

/-! ## Docid allocation (`IndexWriter::next_docid`, src/imdb-index/src/index/names.rs) -/

/-- The maximum docid, `(1 << 28) - 1`, from the `MAX_DOC_ID` constant. -/
def MAX_DOC_ID : Nat := 2 ^ 28 - 1

/-- Rust `u32::checked_add`. -/
def checked_add_u32 (a b : Nat) : Option Nat :=
  if a + b < 2 ^ 32 then some (a + b) else none

/-- One step of docid allocation, translated from `IndexWriter::next_docid`.
The input is the writer's `next_docid` field; on success the result is the
assigned docid together with the new value of `next_docid`. `none` models
the `bug!` error returns. -/
def next_docid (cur : Nat) : Option (Nat × Nat) :=
  let docid := cur
  match checked_add_u32 cur 1 with
  | none => none
  | some nxt => if nxt > MAX_DOC_ID then none else some (docid, nxt)

/-! ## Posting encoding (`IndexWriter::finish` and `Posting::read`,
src/imdb-index/src/index/names.rs) -/

/-- The u32 written for one posting in `IndexWriter::finish`:
`(min(15, frequency) << 28) | docid`. -/
def pack_posting (docid frequency : Nat) : Nat :=
  let freq := min 15 frequency
  (freq <<< 28) ||| docid

/-- The docid extracted by `Posting::read`: `v & MAX_DOC_ID`. -/
def posting_docid (v : Nat) : Nat := v &&& MAX_DOC_ID

/-- The frequency extracted by `Posting::read`: `v >> 28`. -/
def posting_frequency (v : Nat) : Nat := v >>> 28

/-- Little-endian byte serialization of a u32 (`CursorWriter::write_u32`). -/
def u32_le (n : Nat) : List Nat :=
  [n % 256, n / 2 ^ 8 % 256, n / 2 ^ 16 % 256, n / 2 ^ 24 % 256]

/-- Little-endian u32 read (`LE::read_u32`); reads the first four bytes. -/
def read_u32_le (bs : List Nat) : Option Nat :=
  match bs with
  | b0 :: b1 :: b2 :: b3 :: _ =>
      some (b0 + b1 * 2 ^ 8 + b2 * 2 ^ 16 + b3 * 2 ^ 24)
  | _ => none

/-! ## Episode keys (src/imdb-index/src/index/episode.rs)

Episode records carry their two id strings as UTF-8 byte lists, exactly as
the encoder (`write_episode`) consumes them via `as_bytes`. -/

/-- An episode record (`record.rs::Episode`), with the id strings as their
UTF-8 bytes. -/
structure Episode where
  id : List Nat
  tvshow_id : List Nat
  season : Option Nat
  episode : Option Nat
  deriving DecidableEq, Repr

/-- Big-endian byte serialization of a u32 (`u32::to_be_bytes`). -/
def u32_be (n : Nat) : List Nat :=
  [n / 2 ^ 24 % 256, n / 2 ^ 16 % 256, n / 2 ^ 8 % 256, n % 256]

/-- Reads a big-endian optional u32 (`from_optional_u32`): `u32::MAX` stands
for a missing value, and fewer than four bytes is an error. -/
def from_optional_u32 (bs : List Nat) : Option (Option Nat) :=
  match bs with
  | b0 :: b1 :: b2 :: b3 :: _ =>
      let x := ((b0 * 256 + b1) * 256 + b2) * 256 + b3
      some (if x = 2 ^ 32 - 1 then none else some x)
  | _ => none

/-- Encodes a present season number (`to_optional_season`): a missing season
becomes `u32::MAX`, and a season equal to `u32::MAX` is a `bug!` error. -/
def to_optional_season (ep : Episode) : Option Nat :=
  match ep.season with
  | none => some (2 ^ 32 - 1)
  | some x => if x = 2 ^ 32 - 1 then none else some x

/-- Encodes a present episode number (`to_optional_epnum`). -/
def to_optional_epnum (ep : Episode) : Option Nat :=
  match ep.episode with
  | none => some (2 ^ 32 - 1)
  | some x => if x = 2 ^ 32 - 1 then none else some x

/-- Builds the seasons-index key for an episode (`write_episode`):
`tvshow_id || 0x00 || season_be || episode_be || id`, failing when the
tvshow id contains a NUL byte or a number equals `u32::MAX`. -/
def write_episode (ep : Episode) : Option (List Nat) :=
  if ep.tvshow_id.any (fun b => b = 0) then none
  else
    match to_optional_season ep, to_optional_epnum ep with
    | some s, some e =>
        some (ep.tvshow_id ++ [0] ++ u32_be s ++ u32_be e ++ ep.id)
    | _, _ => none

/-- Decodes a seasons-index key back into an episode (`read_episode`): split
at the first NUL byte, then read two big-endian optional u32 values, the
rest being the episode id. -/
def read_episode (bytes : List Nat) : Option Episode :=
  let tvshow_id := bytes.takeWhile (fun b => b ≠ 0)
  match bytes.dropWhile (fun b => b ≠ 0) with
  | [] => none
  | _ :: rest =>
      match from_optional_u32 rest, from_optional_u32 (rest.drop 4) with
      | some season, some epnum =>
          some ⟨rest.drop 8, tvshow_id, season, epnum⟩
      | _, _ => none

/-! ## Scored values (src/imdb-index/src/scored.rs)

For all the operations the claims are about, the source only copies,
compares, adds and divides `f64` scores, so scores are embedded as exact
rationals. The claim about `NaN` handling uses the tagged type `F64`
further below instead. -/

/-- A value with an attached score (`Scored<T>` with the score as `ℚ`). -/
structure ScoredQ (α : Type) where
  score : ℚ
  value : α
  deriving DecidableEq, Repr

/-- Maps the wrapped value, keeping the score (`Scored::map`). -/
def ScoredQ.map {α β : Type} (s : ScoredQ α) (f : α → β) : ScoredQ β :=
  ⟨s.score, f s.value⟩

/-- Maps the score, keeping the value (`Scored::map_score`). -/
def ScoredQ.map_score {α : Type} (s : ScoredQ α) (f : ℚ → ℚ) : ScoredQ α :=
  ⟨f s.score, s.value⟩

/-- Score normalization (`SearchResults::normalize`): if the collection is
nonempty and the top score is nonzero, divide every score by the top score;
otherwise leave all scores unchanged. -/
def normalize {α : Type} (rs : List (ScoredQ α)) : List (ScoredQ α) :=
  match rs.head? with
  | none => rs
  | some top =>
      if top.score = 0 then rs
      else rs.map (fun r => ⟨r.score / top.score, r.value⟩)

/-! ## Top-K collection (`CollectTopK`, src/imdb-index/src/index/names.rs)

The collector consumes the stream of scored docids produced by the searcher;
it is modelled as a function of that stream together with the
docid-to-nameid map. The `BinaryHeap<Reverse<Scored>>` min-heap is modelled
as a list together with a minimum-selection function (ties resolved to the
earliest element; the Rust heap leaves tie order unspecified), and the
`FnvHashMap` as an association list used only through get/insert/remove. -/

/-- Lookup in the nameid-to-best-score map (`FnvHashMap::get`). -/
def lookupById (byid : List (Nat × ℚ)) (k : Nat) : Option ℚ :=
  match byid with
  | [] => none
  | (k', v) :: rest => if k' = k then some v else lookupById rest k

/-- Insert/overwrite in the nameid-to-best-score map (`FnvHashMap::insert`). -/
def insertById (byid : List (Nat × ℚ)) (k : Nat) (v : ℚ) : List (Nat × ℚ) :=
  match byid with
  | [] => [(k, v)]
  | (k', v') :: rest =>
      if k' = k then (k, v) :: rest else (k', v') :: insertById rest k v

/-- Removal from the nameid-to-best-score map (`FnvHashMap::remove`). -/
def removeById (byid : List (Nat × ℚ)) (k : Nat) : List (Nat × ℚ) :=
  match byid with
  | [] => []
  | (k', v') :: rest =>
      if k' = k then rest else (k', v') :: removeById rest k

/-- The minimum-score element of the modelled min-heap
(`BinaryHeap<Reverse<Scored>>::peek`); ties resolve to the earliest
element. -/
def heapPeekMin : List (ScoredQ Nat) → Option (ScoredQ Nat)
  | [] => none
  | x :: rest =>
      match heapPeekMin rest with
      | none => some x
      | some m => if m.score < x.score then some m else some x

/-- Intermediate state of `CollectTopK::collect`. -/
structure CollectState where
  queue : List (ScoredQ Nat)
  byid : List (Nat × ℚ)
  deriving DecidableEq, Repr

/-- One iteration of the loop in `CollectTopK::collect` for the next scored
docid from the searcher. -/
def collect_step (k : Nat) (idmap : Nat → Nat) (st : CollectState)
    (swd : ScoredQ Nat) : CollectState :=
  let scored := swd.map idmap
  match lookupById st.byid scored.value with
  | some score =>
      if scored.score > score then
        { st with byid := insertById st.byid scored.value scored.score }
      else st
  | none =>
      if st.queue.length < k then
        { queue := scored :: st.queue,
          byid := insertById st.byid scored.value scored.score }
      else
        match heapPeekMin st.queue with
        | none => st
        | some worst =>
            if worst.score < scored.score then
              { queue := scored :: st.queue.erase worst,
                byid := insertById (removeById st.byid worst.value)
                  scored.value scored.score }
            else st

/-- Drains the min-heap in ascending score order; the fuel argument is the
initial heap size, which bounds the number of pops. -/
def drainAux : Nat → List (ScoredQ Nat) → List (ScoredQ Nat)
  | 0, _ => []
  | Nat.succ n, queue =>
      match heapPeekMin queue with
      | none => []
      | some m => m :: drainAux n (queue.erase m)

/-- Builds results from the min-heap (`SearchResults::from_min_heap`): pop
everything in ascending score order, then reverse into descending order. -/
def from_min_heap (queue : List (ScoredQ Nat)) : List (ScoredQ Nat) :=
  (drainAux queue.length queue).reverse

/-- The whole of `CollectTopK::collect` applied to the stream of scored
docids produced by the searcher. -/
def collect (k : Nat) (idmap : Nat → Nat) (stream : List (ScoredQ Nat)) :
    List (ScoredQ Nat) :=
  if k = 0 then []
  else
    let st := stream.foldl (collect_step k idmap) ⟨[], []⟩
    normalize (from_min_heap st.queue)

/-! ## Tagged float scores (src/imdb-index/src/scored.rs, `NaN` handling)

The claim about `Scored`'s `NaN` safety is a claim about the floating point
classification of scores (finite versus `NaN`/infinite), not about float
arithmetic, so `f64` is modelled as a rational tagged with the three
non-finite classes. -/

/-- An `f64` as used for scores: a finite value or one of the non-finite
classes. -/
inductive F64 where
  | finite (q : ℚ)
  | nan
  | inf
  | neginf
  deriving DecidableEq, Repr

/-- Rust `f64::is_finite`. -/
def F64.is_finite : F64 → Bool
  | finite _ => true
  | _ => false

/-- Rust `f64::partial_cmp`: `none` exactly when one side is `NaN`. -/
def F64.partial_cmp : F64 → F64 → Option Ordering
  | nan, _ => none
  | _, nan => none
  | finite a, finite b => some (compare a b)
  | finite _, inf => some Ordering.lt
  | finite _, neginf => some Ordering.gt
  | inf, finite _ => some Ordering.gt
  | inf, inf => some Ordering.eq
  | inf, neginf => some Ordering.gt
  | neginf, finite _ => some Ordering.lt
  | neginf, inf => some Ordering.lt
  | neginf, neginf => some Ordering.eq

/-- A value with an attached tagged-float score (`Scored<T>`). -/
structure ScoredF (α : Type) where
  score : F64
  value : α

/-- Creates a scored value with score `1.0` (`Scored::new`). -/
def ScoredF.new {α : Type} (v : α) : ScoredF α := ⟨F64.finite 1, v⟩

/-- Replaces the score (`Scored::set_score`); the `assert!(score.is_finite())`
panic is modelled as `none`. -/
def ScoredF.set_score {α : Type} (s : ScoredF α) (sc : F64) :
    Option (ScoredF α) :=
  if sc.is_finite then some ⟨sc, s.value⟩ else none

/-- Replaces the score, consuming the value (`Scored::with_score`); defined
through `set_score` exactly as in the source. -/
def ScoredF.with_score {α : Type} (s : ScoredF α) (sc : F64) :
    Option (ScoredF α) :=
  s.set_score sc

/-- Maps the score (`Scored::map_score`); panics, via `with_score`, when the
function returns a non-finite score. -/
def ScoredF.fmap_score {α : Type} (s : ScoredF α) (f : F64 → F64) :
    Option (ScoredF α) :=
  s.with_score (f s.score)

/-- The comparison used by `impl Ord for Scored`:
`self.score.partial_cmp(&other.score)`, before the `unwrap`. -/
def ScoredF.cmp {α : Type} (s1 s2 : ScoredF α) : Option Ordering :=
  s1.score.partial_cmp s2.score

/-! ## Title kinds (src/imdb-index/src/record.rs) -/

/-- The kind of a title (`TitleKind`). -/
inductive TitleKind where
  | Movie
  | Short
  | TVEpisode
  | TVMiniSeries
  | TVMovie
  | TVSeries
  | TVShort
  | TVSpecial
  | Video
  | VideoGame
  deriving DecidableEq, Repr

/-- The IMDb string form of a title kind (`TitleKind::as_str`). -/
def TitleKind.as_str : TitleKind → List Char
  | Movie => str "movie"
  | Short => str "short"
  | TVEpisode => str "tvEpisode"
  | TVMiniSeries => str "tvMiniSeries"
  | TVMovie => str "tvMovie"
  | TVSeries => str "tvSeries"
  | TVShort => str "tvShort"
  | TVSpecial => str "tvSpecial"
  | Video => str "video"
  | VideoGame => str "videoGame"

/-- Codepoint-wise lowercasing, standing for Rust `str::to_lowercase`. Every
string this development compares after lowercasing is ASCII, where
`Char.toLower` agrees with the Rust function. -/
def rust_lowercase (s : List Char) : List Char := s.map Char.toLower

/-- Parses a title kind (`impl FromStr for TitleKind`), lowercasing first
and accepting the IMDb forms and their common-sense aliases. -/
def TitleKind.from_str (ty : List Char) : Option TitleKind :=
  let l := rust_lowercase ty
  if l = str "movie" then some Movie
  else if l = str "short" then some Short
  else if l = str "tvepisode" ∨ l = str "episode" then some TVEpisode
  else if l = str "tvminiseries" ∨ l = str "miniseries" then some TVMiniSeries
  else if l = str "tvmovie" then some TVMovie
  else if l = str "tvseries" ∨ l = str "tvshow" ∨ l = str "show" then
    some TVSeries
  else if l = str "tvshort" then some TVShort
  else if l = str "tvspecial" ∨ l = str "special" then some TVSpecial
  else if l = str "video" then some Video
  else if l = str "videogame" ∨ l = str "game" then some VideoGame
  else none

/-- Lexicographic strict order on codepoint lists; on the ASCII `as_str`
values this coincides with the UTF-8 byte order used by Rust `str::cmp`. -/
def charListLt : List Char → List Char → Bool
  | [], [] => false
  | [], _ :: _ => true
  | _ :: _, [] => false
  | a :: as, b :: bs =>
      if a < b then true else if b < a then false else charListLt as bs

/-- The `Ord` implementation of `TitleKind`, which compares the `as_str`
forms, as a boolean `≤`. -/
def TitleKind.le (k1 k2 : TitleKind) : Bool :=
  ! charListLt k2.as_str k1.as_str

/-- Stable sort of title kinds by the `Ord` implementation
(`kinds.sort()` in `impl fmt::Display for Query`). -/
def sortKinds (l : List TitleKind) : List TitleKind :=
  List.insertionSort (fun k1 k2 => TitleKind.le k1 k2 = true) l

/-! ## Name scorers and similarity functions
(src/imdb-index/src/index/names.rs, src/imdb-index/src/search.rs) -/

/-- The ranking function for the name index (`NameScorer`). -/
inductive NameScorer where
  | OkapiBM25
  | TFIDF
  | Jaccard
  | QueryRatio
  deriving DecidableEq, Repr

/-- String form of a scorer (`NameScorer::as_str`). -/
def NameScorer.as_str : NameScorer → List Char
  | OkapiBM25 => str "okapibm25"
  | TFIDF => str "tfidf"
  | Jaccard => str "jaccard"
  | QueryRatio => str "queryratio"

/-- Parses a scorer (`impl FromStr for NameScorer`). -/
def NameScorer.from_str (s : List Char) : Option NameScorer :=
  if s = str "okapibm25" then some OkapiBM25
  else if s = str "tfidf" then some TFIDF
  else if s = str "jaccard" then some Jaccard
  else if s = str "queryratio" then some QueryRatio
  else none

/-- The optional similarity rescoring function (`Similarity`). -/
inductive Similarity where
  | None
  | Levenshtein
  | Jaro
  | JaroWinkler
  deriving DecidableEq, Repr

/-- String form of a similarity function (`impl fmt::Display`). -/
def Similarity.as_str : Similarity → List Char
  | None => str "none"
  | Levenshtein => str "levenshtein"
  | Jaro => str "jaro"
  | JaroWinkler => str "jarowinkler"

/-- Parses a similarity function (`impl FromStr for Similarity`). -/
def Similarity.from_str (s : List Char) : Option Similarity :=
  if s = str "none" then some None
  else if s = str "levenshtein" then some Levenshtein
  else if s = str "jaro" then some Jaro
  else if s = str "jarowinkler" ∨ s = str "jaro-winkler" then some JaroWinkler
  else none

/-- Whether no similarity function is selected (`Similarity::is_none`). -/
def Similarity.is_none : Similarity → Bool
  | None => true
  | _ => false

/-! ## Ranges (src/imdb-index/src/search.rs, `Range<T>`) -/

/-- A possibly unbounded inclusive range over `u32` (`Range<u32>`); the Rust
field `end` is called `stop` here because `end` is a Lean keyword. -/
structure QRange where
  start : Option Nat
  stop : Option Nat
  deriving DecidableEq, Repr

/-- The empty (fully unbounded) range (`Range::none`). -/
def QRange.nullRange : QRange := ⟨Option.none, Option.none⟩

/-- Whether both ends are unbounded (`Range::is_none`). -/
def QRange.is_none (r : QRange) : Bool := r.start.isNone && r.stop.isNone

/-! ## Decimal numbers as text -/

/-- The ASCII digit for a value below ten. -/
def digitChar (d : Nat) : Char := Char.ofNat (48 + d)

/-- Fuel-driven decimal printing; the fuel bounds the recursion depth and
`natToChars` always supplies enough. -/
def natToCharsAux : Nat → Nat → List Char
  | 0, _ => []
  | fuel + 1, n =>
      if n < 10 then [digitChar n]
      else natToCharsAux fuel (n / 10) ++ [digitChar (n % 10)]

/-- Decimal printing of a nonnegative integer, as used by `write!` for
`usize`/`u32` values. -/
def natToChars (n : Nat) : List Char := natToCharsAux (n + 1) n

/-- The numeric value of an ASCII digit. -/
def charToDigit (c : Char) : Option Nat :=
  if 48 ≤ c.toNat ∧ c.toNat ≤ 57 then some (c.toNat - 48) else none

/-- Accumulating decimal parse over a digit list. -/
def parseDigitsAux (acc : Nat) : List Char → Option Nat
  | [] => some acc
  | c :: cs =>
      match charToDigit c with
      | some d => parseDigitsAux (acc * 10 + d) cs
      | none => none

/-- Rust unsigned-integer `FromStr` (`str::parse::<u32>`/`::<usize>`): an
optional leading `+`, then at least one digit, rejecting values reaching
`bound` (the overflow error). -/
def parse_uint (bound : Nat) (s : List Char) : Option Nat :=
  let digits :=
    match s with
    | [] => []
    | c :: cs => if c = '+' then cs else c :: cs
  match digits with
  | [] => none
  | _ =>
      match parseDigitsAux 0 digits with
      | some v => if v < bound then some v else none
      | none => none

/-! ## Whitespace and trimming -/

/-- The Unicode White_Space predicate, used both by the regex class `\s`
and by `str::trim`. -/
def isRustWhitespace (c : Char) : Bool :=
  (0x9 ≤ c.toNat && c.toNat ≤ 0xD) || c.toNat = 0x20 || c.toNat = 0x85
  || c.toNat = 0xA0 || c.toNat = 0x1680
  || (0x2000 ≤ c.toNat && c.toNat ≤ 0x200A)
  || c.toNat = 0x2028 || c.toNat = 0x2029 || c.toNat = 0x202F
  || c.toNat = 0x205F || c.toNat = 0x3000

/-- Rust `str::trim`. -/
def rust_trim (s : List Char) : List Char :=
  ((s.dropWhile isRustWhitespace).reverse.dropWhile isRustWhitespace).reverse

/-! ## Range parsing and printing (`impl FromStr/Display for Range<T>`) -/

/-- Prints a range (`impl fmt::Display for Range<T>`): `-`, `A-`, `-B`,
`A-B`, or the bare `A` when both ends are equal. -/
def range_to_chars (r : QRange) : List Char :=
  match r.start, r.stop with
  | Option.none, Option.none => ['-']
  | some s, Option.none => natToChars s ++ ['-']
  | Option.none, some e => '-' :: natToChars e
  | some s, some e =>
      if s = e then natToChars s else natToChars s ++ '-' :: natToChars e

/-- Parses a range (`impl FromStr for Range<T>` with `T = u32`): split at
the first `-` if any, trim both sides, and parse the nonempty sides. -/
def range_from_chars (bound : Nat) (s : List Char) : Option QRange :=
  match s.dropWhile (fun c => c ≠ '-') with
  | [] =>
      match parse_uint bound s with
      | some v => some ⟨some v, some v⟩
      | Option.none => Option.none
  | _ :: after =>
      let a := rust_trim (s.takeWhile (fun c => c ≠ '-'))
      let b := rust_trim after
      match a.isEmpty, b.isEmpty with
      | true, true => some QRange.nullRange
      | true, false =>
          match parse_uint bound b with
          | some e => some ⟨Option.none, some e⟩
          | Option.none => Option.none
      | false, true =>
          match parse_uint bound a with
          | some v => some ⟨some v, Option.none⟩
          | Option.none => Option.none
      | false, false =>
          match parse_uint bound a, parse_uint bound b with
          | some v, some e => some ⟨some v, some e⟩
          | _, _ => Option.none

/-! ## Queries (src/imdb-index/src/search.rs, `Query`) -/

/-- A search query (`Query`), with strings as codepoint lists. -/
structure Query where
  name : Option (List Char)
  name_scorer : Option NameScorer
  similarity : Similarity
  size : Nat
  kinds : List TitleKind
  year : QRange
  votes : QRange
  season : QRange
  episode : QRange
  tvshow_id : Option (List Char)
  deriving DecidableEq, Repr

/-- The empty query (`Query::new`): BM25 scorer, no similarity, size 30. -/
def Query.new : Query :=
  ⟨Option.none, some NameScorer.OkapiBM25, Similarity.None, 30, [],
   QRange.nullRange, QRange.nullRange, QRange.nullRange, QRange.nullRange,
   Option.none⟩

/-- Builder `Query::name`. -/
def Query.withName (q : Query) (n : List Char) : Query :=
  { q with name := some n }

/-- Builder `Query::kind`: appends the kind unless already present. -/
def Query.kind (q : Query) (k : TitleKind) : Query :=
  if q.kinds.contains k then q else { q with kinds := q.kinds ++ [k] }

/-- Whether the query is empty (`Query::is_empty`): no (or empty) name and
no kind, year, votes, season, episode or tvshow filter. -/
def Query.is_empty (q : Query) : Bool :=
  (match q.name with
   | Option.none => true
   | some n => n.isEmpty)
  && q.kinds.isEmpty && q.year.is_none && q.votes.is_none
  && q.season.is_none && q.episode.is_none && q.tvshow_id.isNone

/-! ## Query printing (`impl fmt::Display for Query`)

The Display implementation writes, in order: the scorer directive, the
similarity and size directives, the sorted kinds, the four ranges when
bounded, the tvshow directive when present, and finally the name. The
directive bodies are collected in that exact order and each is wrapped in
braces (the first without a leading space, the rest with one). -/

/-- Wraps the first directive body in braces (`write!("{{…}}", …)`). -/
def firstChunk (body : List Char) : List Char := lbrace :: body ++ [rbrace]

/-- Wraps a subsequent directive body in braces after a space. -/
def dirChunk (body : List Char) : List Char :=
  ' ' :: lbrace :: body ++ [rbrace]

/-- Concatenation of space-prefixed directive chunks. -/
def chunkConcat : List (List Char) → List Char
  | [] => []
  | b :: bs => dirChunk b ++ chunkConcat bs

/-- The scorer directive body: `scorer:none` or `scorer:<name>`. -/
def scorer_body (q : Query) : List Char :=
  match q.name_scorer with
  | Option.none => str "scorer:none"
  | some sc => str "scorer:" ++ sc.as_str

/-- The optional body for a range directive: present iff the range is
bounded on some side. -/
def opt_range_body (label : List Char) (r : QRange) : List (List Char) :=
  if r.is_none then [] else [label ++ range_to_chars r]

/-- The optional `show:` directive body. -/
def show_body (q : Query) : List (List Char) :=
  match q.tvshow_id with
  | Option.none => []
  | some id => [str "show:" ++ id]

/-- All directive bodies of `Display`, in emission order. -/
def query_dir_bodies (q : Query) : List (List Char) :=
  scorer_body q
    :: (str "sim:" ++ q.similarity.as_str)
    :: (str "size:" ++ natToChars q.size)
    :: ((sortKinds q.kinds).map TitleKind.as_str
        ++ opt_range_body (str "year:") q.year
        ++ opt_range_body (str "votes:") q.votes
        ++ opt_range_body (str "season:") q.season
        ++ opt_range_body (str "episode:") q.episode
        ++ show_body q)

/-- The trailing name part of `Display` (a space then the raw name). -/
def name_tail (q : Query) : List Char :=
  match q.name with
  | Option.none => []
  | some nm => ' ' :: nm

/-- The full `Display` output of a query. -/
def query_to_chars (q : Query) : List Char :=
  match query_dir_bodies q with
  | [] => name_tail q
  | b :: bs => firstChunk b ++ chunkConcat bs ++ name_tail q

/-! ## Query parsing (`impl FromStr for Query`)

The parser tokenizes with the regex
`\{(?P<directive>[^}]+)\}|(?P<terms>[^{}\s]+)|(?P<space>\s+)` (leftmost
match; positions where no alternative matches are skipped), then parses
each directive with `^(?:(?P<name>[^:]+):(?P<val>.+)|(?P<kind>.+))$`. -/

/-- A token of the query syntax: a brace directive body or a free term. -/
inductive QTok where
  | directive (body : List Char)
  | term (t : List Char)
  deriving DecidableEq, Repr

/-- A character that the `terms` alternative `[^{}\s]+` accepts. -/
def isTermChar (c : Char) : Bool :=
  ! isRustWhitespace c && c ≠ lbrace && c ≠ rbrace

/-- Fuel-driven tokenizer loop; the fuel bounds the recursion depth and
`tokenize` always supplies enough. -/
def tokenizeAux : Nat → List Char → List QTok
  | 0, _ => []
  | _ + 1, [] => []
  | fuel + 1, c :: rest =>
      if c = lbrace then
        match rest.dropWhile (fun x => x ≠ rbrace) with
        | _ :: rest' =>
            let body := rest.takeWhile (fun x => x ≠ rbrace)
            if body.isEmpty then tokenizeAux fuel rest
            else QTok.directive body :: tokenizeAux fuel rest'
        | [] => tokenizeAux fuel rest
      else if isRustWhitespace c then
        tokenizeAux fuel (rest.dropWhile isRustWhitespace)
      else if c = rbrace then
        tokenizeAux fuel rest
      else
        QTok.term (c :: rest.takeWhile isTermChar)
          :: tokenizeAux fuel (rest.dropWhile isTermChar)

/-- Tokenizes a query string as the `PARTS` regex does. -/
def tokenize (s : List Char) : List QTok := tokenizeAux s.length s

/-- The result of matching the `DIRECTIVE` regex against a directive body:
a `name:value` pair, a bare kind, or no match at all (on which the source
`unwrap` panics; a body can fail to match only through an embedded newline,
which `.` does not cross). -/
inductive RDirective where
  | named (nm val : List Char)
  | kind (body : List Char)
  | nomatch
  deriving DecidableEq, Repr

/-- Whether a newline occurs in the list. -/
def hasNl (s : List Char) : Bool := s.any (fun c => c = '\n')

/-- Matches the `DIRECTIVE` regex: `name` is everything before the first
`:` (nonempty), `val` everything after it (nonempty, no newline); otherwise
the whole body is a kind (no newline). -/
def parse_directive (body : List Char) : RDirective :=
  let nm := body.takeWhile (fun c => c ≠ ':')
  match body.dropWhile (fun c => c ≠ ':') with
  | _ :: val =>
      if nm.isEmpty = false ∧ val.isEmpty = false ∧ hasNl val = false then
        RDirective.named nm val
      else if body.isEmpty = false ∧ hasNl body = false then
        RDirective.kind body
      else RDirective.nomatch
  | [] =>
      if body.isEmpty = false ∧ hasNl body = false then RDirective.kind body
      else RDirective.nomatch

/-- Applies one directive to the query being built, as the `match name`
dispatch in `FromStr for Query` does; `none` models every error return and
the `unwrap` panic. -/
def apply_directive (q : Query) (body : List Char) : Option Query :=
  match parse_directive body with
  | RDirective.nomatch => Option.none
  | RDirective.kind b =>
      match TitleKind.from_str b with
      | some k => some (q.kind k)
      | Option.none => Option.none
  | RDirective.named nm0 val0 =>
      let nm := rust_trim nm0
      let val := rust_trim val0
      if nm = str "size" then
        match parse_uint (2 ^ 64) val with
        | some n => some { q with size := n }
        | Option.none => Option.none
      else if nm = str "year" then
        match range_from_chars (2 ^ 32) val with
        | some r => some { q with year := r }
        | Option.none => Option.none
      else if nm = str "votes" then
        match range_from_chars (2 ^ 32) val with
        | some r => some { q with votes := r }
        | Option.none => Option.none
      else if nm = str "season" then
        match range_from_chars (2 ^ 32) val with
        | some r => some { q with season := r }
        | Option.none => Option.none
      else if nm = str "episode" then
        match range_from_chars (2 ^ 32) val with
        | some r => some { q with episode := r }
        | Option.none => Option.none
      else if nm = str "tvseries" ∨ nm = str "tvshow" ∨ nm = str "show" then
        some { q with tvshow_id := some val }
      else if nm = str "sim" ∨ nm = str "similarity" then
        match Similarity.from_str val with
        | some sim => some { q with similarity := sim }
        | Option.none => Option.none
      else if nm = str "scorer" then
        if val = str "none" then some { q with name_scorer := Option.none }
        else
          match NameScorer.from_str val with
          | some sc => some { q with name_scorer := some sc }
          | Option.none => Option.none
      else Option.none

/-- Applies a list of directive bodies in order, stopping at the first
error. -/
def apply_dirs (q : Query) : List (List Char) → Option Query
  | [] => some q
  | b :: bs =>
      match apply_directive q b with
      | some q' => apply_dirs q' bs
      | Option.none => Option.none

/-- Joins free terms with single spaces (`terms.join(" ")`). -/
def join_space : List (List Char) → List Char
  | [] => []
  | [t] => t
  | t :: ts => t ++ ' ' :: join_space ts

/-- The token-processing loop of `FromStr for Query`: terms accumulate,
directives apply immediately, and at the end a nonempty term list becomes
the name. -/
def parse_tokens : List QTok → Query → List (List Char) → Option Query
  | [], q, terms =>
      some (if terms.isEmpty then q else q.withName (join_space terms))
  | QTok.term t :: rest, q, terms => parse_tokens rest q (terms ++ [t])
  | QTok.directive b :: rest, q, terms =>
      match apply_directive q b with
      | some q' => parse_tokens rest q' terms
      | Option.none => Option.none

/-- Parses a query string (`impl FromStr for Query`). -/
def query_from_chars (s : List Char) : Option Query :=
  parse_tokens (tokenize s) Query.new []

/-! ## Top-level search entry (src/imdb-index/src/search.rs,
`Searcher::search`)

The two search back ends (`search_exhaustive` and `search_with_name`) read
the IMDb data and index files; for the claim about empty queries they are
abstracted as oracle functions, so that the early return can be shown to
produce an empty result for every possible back end, i.e. without
consulting index or data at all. -/

/-- The name-index query built by `Query::name_query`: present only when
both a name and a name scorer are set, and asking for at least 1000
results. -/
structure NameQuery where
  qname : List Char
  size : Nat
  scorer : NameScorer
  deriving DecidableEq, Repr

/-- Builds the name query (`Query::name_query`). -/
def Query.name_query (q : Query) : Option NameQuery :=
  match q.name with
  | Option.none => Option.none
  | some n =>
      match q.name_scorer with
      | Option.none => Option.none
      | some sc => some ⟨n, max 1000 q.size, sc⟩

/-- Truncation to the first `size` results (`SearchResults::trim`). -/
def results_trim {α : Type} (rs : List (ScoredQ α)) (size : Nat) :
    List (ScoredQ α) :=
  rs.take size

/-- The body of `Searcher::search`, over abstract back ends: empty queries
return immediately; otherwise one of the back ends runs and the results
are trimmed and normalized. -/
def searcher_search {α : Type} (exhaustive : Query → List (ScoredQ α))
    (with_name : Query → NameQuery → List (ScoredQ α)) (q : Query) :
    List (ScoredQ α) :=
  if q.is_empty then []
  else
    let results :=
      match q.name_query with
      | Option.none => exhaustive q
      | some nq => with_name q nq
    normalize (results_trim results q.size)

/-! ## Name search: posting iterators, disjunctions and the searcher
(src/imdb-index/src/index/names.rs, `PostingIter`, `Disjunction`,
`Searcher`)

A posting iterator is modelled as the list of its remaining
(docid, score) pairs, the head being the current posting; the score of a
pair stands for the value `PostingIter::score` computes at that posting
(term-level scoring and the query count multiplier are folded into it).
The binary heap of posting iterators is modelled as a plain list:
`argminKey` picks the position of an iterator with minimal current
docid, exhausted iterators ranking as `MAX_DOC_ID + 1` exactly as the
`Ord` impl on `PostingIter` keys them.  `document_length` lookups are an
oracle function `docLen`.  The two inner loops of `Disjunction::next`
and `Disjunction::skip_to` run on explicit fuel; every iteration of
either loop removes at least one posting from some iterator, so the
callers' fuel `totalElems queue + 1` always suffices. -/

/-- Sort key of a posting iterator in the heap (the `PostingIter.docid`
field): the current docid, or `MAX_DOC_ID + 1` once exhausted. -/
def pkey (it : List (Nat × ℚ)) : Nat :=
  match it with
  | [] => MAX_DOC_ID + 1
  | e :: _ => e.1

/-- Position of the first iterator with minimal sort key: the model of
`BinaryHeap::peek_mut` under the reversed `PostingIter` order. -/
def argminKey : List (List (Nat × ℚ)) → Nat
  | [] => 0
  | a :: rest =>
      match rest with
      | [] => 0
      | _ :: _ =>
          if pkey (rest.getD (argminKey rest) []) < pkey a then
            argminKey rest + 1
          else 0

/-- Total number of postings left in a queue; an upper bound on the
iterations of both loops below. -/
def totalElems (q : List (List (Nat × ℚ))) : Nat :=
  (q.map List.length).sum

/-- A disjunction over posting iterators (`Disjunction`). -/
structure Disjunction where
  query_len : ℚ
  scorer : NameScorer
  queue : List (List (Nat × ℚ))
  is_done : Bool

/-- Builds a disjunction (`Disjunction::new`). -/
def Disjunction.new (query_len : ℚ) (scorer : NameScorer)
    (posting_iters : List (List (Nat × ℚ))) : Disjunction :=
  ⟨query_len, scorer, posting_iters, posting_iters.isEmpty⟩

/-- The empty disjunction, matching nothing (`Disjunction::empty`). -/
def Disjunction.empty (scorer : NameScorer) : Disjunction :=
  ⟨0, scorer, [], true⟩

/-- The accumulation loop of `Disjunction::next`: while the minimal
iterator holds the same docid as the posting being scored, add its score
and advance it. -/
def accumLoop : Nat → (Nat × ℚ) → List (List (Nat × ℚ)) →
    (Nat × ℚ) × List (List (Nat × ℚ))
  | 0, sc, q => (sc, q)
  | Nat.succ fuel, sc, q =>
      match q.getD (argminKey q) [] with
      | [] => (sc, q)
      | (d2, s2) :: rest =>
          if sc.1 = d2 then
            accumLoop fuel (sc.1, sc.2 + s2) (q.set (argminKey q) rest)
          else (sc, q)

/-- One pull from a disjunction (`impl Iterator for Disjunction`): score
the minimal docid, accumulate the other iterators positioned at the same
docid, then apply the disjunction-level Jaccard / query-ratio
adjustment. -/
def Disjunction.next (docLen : Nat → ℚ) (d : Disjunction) :
    Option (Nat × ℚ) × Disjunction :=
  if d.is_done then (Option.none, d)
  else
    match d.queue.getD (argminKey d.queue) [] with
    | [] => (Option.none, { d with is_done := true })
    | (d1, s1) :: rest =>
        let q1 := d.queue.set (argminKey d.queue) rest
        let res := accumLoop (totalElems q1 + 1) (d1, s1) q1
        let adjusted :=
          match d.scorer with
          | NameScorer.Jaccard =>
              (res.1.1, res.1.2 / (d.query_len + docLen res.1.1 - res.1.2))
          | NameScorer.QueryRatio => (res.1.1, res.1.2 / d.query_len)
          | _ => res.1
        (some adjusted, { d with queue := res.2 })

/-- The outer loop of `Disjunction::skip_to`: repeatedly take the
minimal iterator; if it is at or past the target (or exhausted) stop,
otherwise drop its postings below the target and continue, recording
whether some iterator lands exactly on the target. -/
def skipLoop (target : Nat) : Nat → Bool → List (List (Nat × ℚ)) →
    Bool × List (List (Nat × ℚ))
  | 0, found, q => (found, q)
  | Nat.succ fuel, found, q =>
      match q.getD (argminKey q) [] with
      | [] => (found, q)
      | (d1, s1) :: rest =>
          if target ≤ d1 then (found || decide (d1 = target), q)
          else
            let it :=
              ((d1, s1) :: rest).dropWhile (fun e => decide (e.1 < target))
            let fnd := found ||
              (match it.head? with
               | some e => decide (e.1 = target)
               | Option.none => false)
            skipLoop target fuel fnd (q.set (argminKey q) it)

/-- Skips a disjunction to the target docid (`Disjunction::skip_to`):
position every iterator at or past the target; if some iterator contains
the target docid, score it via `Disjunction.next` (which also advances
past it), else return nothing. -/
def Disjunction.skip_to (docLen : Nat → ℚ) (d : Disjunction)
    (target : Nat) : Option (Nat × ℚ) × Disjunction :=
  if d.is_done then (Option.none, d)
  else
    let res := skipLoop target (totalElems d.queue + 1) false d.queue
    if res.1 then Disjunction.next docLen { d with queue := res.2 }
    else (Option.none, { d with queue := res.2 })

/-- The searcher over the name index: a primary disjunction driving the
results and a high-frequency auxiliary disjunction (`Searcher`). -/
structure NameSearcher where
  primary : Disjunction
  high : Disjunction

/-- The tail of `Searcher::new`, after the query ngrams have been
partitioned into low-frequency and high-frequency posting iterators:
when no low frequency term exists, the high disjunction becomes the
primary and the auxiliary is empty. -/
def searcherNew (query_len : ℚ) (scorer : NameScorer)
    (low high : List (List (Nat × ℚ))) : NameSearcher :=
  if low.isEmpty then
    ⟨Disjunction.new query_len scorer high, Disjunction.empty scorer⟩
  else
    ⟨Disjunction.new query_len scorer low,
     Disjunction.new query_len scorer high⟩

/-- One step of `impl Iterator for Searcher`: drive the primary
disjunction, then let the auxiliary disjunction skip to the yielded
docid and add its score contribution. -/
def searcherNext (docLen : Nat → ℚ) (s : NameSearcher) :
    Option (Nat × ℚ) × NameSearcher :=
  match Disjunction.next docLen s.primary with
  | (Option.none, p') => (Option.none, { s with primary := p' })
  | (some sc, p') =>
      match Disjunction.skip_to docLen s.high sc.1 with
      | (some other, h') => (some (sc.1, sc.2 + other.2), ⟨p', h'⟩)
      | (Option.none, h') => (some sc, ⟨p', h'⟩)

/-- The stream of scored docids produced by the searcher (first `n`
pulls). -/
def searcherRun (docLen : Nat → ℚ) : Nat → NameSearcher → List (Nat × ℚ)
  | 0, _ => []
  | Nat.succ n, s =>
      match searcherNext docLen s with
      | (Option.none, _) => []
      | (some sc, s') => sc :: searcherRun docLen n s'

/-- The stream of scored docids produced by a disjunction alone. -/
def disjRun (docLen : Nat → ℚ) : Nat → Disjunction → List (Nat × ℚ)
  | 0, _ => []
  | Nat.succ n, d =>
      match Disjunction.next docLen d with
      | (Option.none, _) => []
      | (some sc, d') => sc :: disjRun docLen n d'

/-! ## Helper lemmas -/

/-- Appending past a fully satisfying prefix, `takeWhile` keeps exactly that
prefix when the next element fails the predicate. -/
theorem takeWhile_append_sat {α : Type} (p : α → Bool) (l : List α) (y : α)
    (r : List α) (hl : ∀ a ∈ l, p a = true) (hy : p y = false) :
    (l ++ y :: r).takeWhile p = l := by
  induction l with
  | nil => simp [List.takeWhile, hy]
  | cons a as ih =>
      have ha : p a = true := hl a (by simp)
      simp only [List.cons_append, List.takeWhile_cons, ha, if_true]
      rw [ih (fun b hb => hl b (by simp [hb]))]

/-- Companion to `takeWhile_append_sat` for `dropWhile`. -/
theorem dropWhile_append_sat {α : Type} (p : α → Bool) (l : List α) (y : α)
    (r : List α) (hl : ∀ a ∈ l, p a = true) (hy : p y = false) :
    (l ++ y :: r).dropWhile p = y :: r := by
  induction l with
  | nil => simp [List.dropWhile, hy]
  | cons a as ih =>
      have ha : p a = true := hl a (by simp)
      simp only [List.cons_append, List.dropWhile_cons, ha, if_true]
      exact ih (fun b hb => hl b (by simp [hb]))

/-- A fully satisfying list is kept whole by `takeWhile`. -/
theorem takeWhile_all {α : Type} (p : α → Bool) (l : List α)
    (h : ∀ a ∈ l, p a = true) : l.takeWhile p = l := by
  induction l with
  | nil => rfl
  | cons a as ih =>
      have ha : p a = true := h a (by simp)
      simp only [List.takeWhile_cons, ha, if_true]
      rw [ih (fun b hb => h b (by simp [hb]))]

/-- A fully satisfying list is emptied by `dropWhile`. -/
theorem dropWhile_all {α : Type} (p : α → Bool) (l : List α)
    (h : ∀ a ∈ l, p a = true) : l.dropWhile p = [] := by
  induction l with
  | nil => rfl
  | cons a as ih =>
      have ha : p a = true := h a (by simp)
      simp only [List.dropWhile_cons, ha, if_true]
      exact ih (fun b hb => h b (by simp [hb]))

/-- A list whose head fails the predicate is untouched by `dropWhile`. -/
theorem dropWhile_head_false {α : Type} (p : α → Bool) (l : List α)
    (h : ∀ a ∈ l.head?, p a = false) : l.dropWhile p = l := by
  cases l with
  | nil => rfl
  | cons a as =>
      have ha : p a = false := h a (by simp)
      simp [List.dropWhile_cons, ha]

/-! ## Tokenizer equations -/

/-- Dropping a while-prefix never lengthens a list. -/
theorem length_dropWhile_le' {α : Type} (p : α → Bool) (l : List α) :
    (l.dropWhile p).length ≤ l.length :=
  (List.dropWhile_suffix p).sublist.length_le

/-- The tokenizer fuel is irrelevant once it covers the input length. -/
theorem tokenizeAux_fuel (f : Nat) :
    ∀ s : List Char, s.length ≤ f → tokenizeAux f s = tokenizeAux s.length s := by
  induction f using Nat.strong_induction_on with
  | _ f ih =>
      intro s hs
      match f, s with
      | 0, [] => rfl
      | fk + 1, [] => rfl
      | 0, c :: rest => simp at hs
      | fk + 1, c :: rest =>
          have hrest : rest.length ≤ fk := by
            simpa using hs
          have hlt1 : fk < fk + 1 := by omega
          have hlt2 : rest.length < fk + 1 := by omega
          show tokenizeAux (fk + 1) (c :: rest)
              = tokenizeAux (rest.length + 1) (c :: rest)
          simp only [tokenizeAux]
          by_cases h1 : c = lbrace
          · rw [if_pos h1, if_pos h1]
            cases hdw : rest.dropWhile (fun x => x ≠ rbrace) with
            | nil =>
                rw [ih fk hlt1 rest hrest,
                    ih rest.length hlt2 rest (le_refl _)]
            | cons x rest' =>
                have hr' : rest'.length ≤ rest.length := by
                  have h := length_dropWhile_le'
                    (fun x => decide (x ≠ rbrace)) rest
                  rw [hdw] at h
                  simp at h
                  omega
                dsimp only
                by_cases hb : (rest.takeWhile (fun x => x ≠ rbrace)).isEmpty
                    = true
                · rw [if_pos hb, if_pos hb,
                      ih fk hlt1 rest hrest,
                      ih rest.length hlt2 rest (le_refl _)]
                · rw [if_neg hb, if_neg hb,
                      ih fk hlt1 rest' (by omega),
                      ih rest.length hlt2 rest' hr']
          · rw [if_neg h1, if_neg h1]
            by_cases h2 : isRustWhitespace c = true
            · rw [if_pos h2, if_pos h2,
                  ih fk hlt1 _ (le_trans (length_dropWhile_le' ..) hrest),
                  ih rest.length hlt2 _ (length_dropWhile_le' ..)]
            · rw [if_neg h2, if_neg h2]
              by_cases h3 : c = rbrace
              · rw [if_pos h3, if_pos h3,
                    ih fk hlt1 rest hrest,
                    ih rest.length hlt2 rest (le_refl _)]
              · rw [if_neg h3, if_neg h3,
                    ih fk hlt1 _ (le_trans (length_dropWhile_le' ..) hrest),
                    ih rest.length hlt2 _ (length_dropWhile_le' ..)]

/-- One-step unfolding of `tokenize` on a cons cell. -/
theorem tokenize_step (c : Char) (rest : List Char) :
    tokenize (c :: rest) =
      if c = lbrace then
        match rest.dropWhile (fun x => x ≠ rbrace) with
        | _ :: rest' =>
            if (rest.takeWhile (fun x => x ≠ rbrace)).isEmpty then
              tokenize rest
            else
              QTok.directive (rest.takeWhile (fun x => x ≠ rbrace))
                :: tokenize rest'
        | [] => tokenize rest
      else if isRustWhitespace c then
        tokenize (rest.dropWhile isRustWhitespace)
      else if c = rbrace then tokenize rest
      else
        QTok.term (c :: rest.takeWhile isTermChar)
          :: tokenize (rest.dropWhile isTermChar) := by
  show tokenizeAux (rest.length + 1) (c :: rest) = _
  simp only [tokenizeAux]
  unfold tokenize
  by_cases h1 : c = lbrace
  · rw [if_pos h1, if_pos h1]
    cases hdw : rest.dropWhile (fun x => x ≠ rbrace) with
    | nil => rw [tokenizeAux_fuel rest.length rest (le_refl _)]
    | cons x rest' =>
        have hr' : rest'.length ≤ rest.length := by
          have h := length_dropWhile_le' (fun x => decide (x ≠ rbrace)) rest
          rw [hdw] at h
          simp at h
          omega
        dsimp only
        by_cases hb : (rest.takeWhile (fun x => x ≠ rbrace)).isEmpty = true
        · rw [if_pos hb, if_pos hb,
              tokenizeAux_fuel rest.length rest (le_refl _)]
        · rw [if_neg hb, if_neg hb,
              tokenizeAux_fuel rest.length rest' hr']
  · rw [if_neg h1, if_neg h1]
    by_cases h2 : isRustWhitespace c = true
    · rw [if_pos h2, if_pos h2,
          tokenizeAux_fuel rest.length _ (length_dropWhile_le' ..)]
    · rw [if_neg h2, if_neg h2]
      by_cases h3 : c = rbrace
      · rw [if_pos h3, if_pos h3,
            tokenizeAux_fuel rest.length rest (le_refl _)]
      · rw [if_neg h3, if_neg h3,
            tokenizeAux_fuel rest.length _ (length_dropWhile_le' ..)]

/-- Tokenizing a brace directive: the body (nonempty, free of closing
braces) becomes one directive token and scanning resumes after it. -/
theorem tokenize_dir_step (body rest : List Char) (hne : body ≠ [])
    (hnr : ∀ c ∈ body, c ≠ rbrace) :
    tokenize (lbrace :: (body ++ rbrace :: rest))
      = QTok.directive body :: tokenize rest := by
  rw [tokenize_step]
  rw [if_pos rfl]
  have hp : ∀ c ∈ body, (fun x => decide (x ≠ rbrace)) c = true := by
    intro c hc
    simpa using hnr c hc
  rw [dropWhile_append_sat _ _ rbrace _ hp (by simp),
      takeWhile_append_sat _ _ rbrace _ hp (by simp)]
  have hbe : ¬ (body.isEmpty = true) := by
    cases body with
    | nil => exact absurd rfl hne
    | cons _ _ => simp
  dsimp only
  rw [if_neg hbe]

/-- Tokenizing a space followed by a non-space continuation just skips the
space. -/
theorem tokenize_space_step (rest : List Char)
    (h : ∀ c ∈ rest.head?, isRustWhitespace c = false) :
    tokenize (' ' :: rest) = tokenize rest := by
  rw [tokenize_step]
  have h1 : ¬ (' ' = lbrace) := by decide
  have h2 : isRustWhitespace ' ' = true := by decide
  simp only [h1, if_false, h2, if_true]
  rw [dropWhile_head_false _ _ h]

/-- Tokenizing a maximal term run: the characters of `t` become one term
token when the continuation does not extend the run. -/
theorem tokenize_term_step (t l : List Char) (hne : t ≠ [])
    (ht : ∀ c ∈ t, isTermChar c = true)
    (hl : ∀ c ∈ l.head?, isTermChar c = false) :
    tokenize (t ++ l) = QTok.term t :: tokenize l := by
  cases t with
  | nil => exact absurd rfl hne
  | cons c t' =>
      have hc : isTermChar c = true := ht c (by simp)
      have hcl : ¬ (c = lbrace) := by
        intro h
        rw [h] at hc
        revert hc
        decide
      have hcw : ¬ (isRustWhitespace c = true) := by
        intro h
        unfold isTermChar at hc
        rw [h] at hc
        simp at hc
      have hcr : ¬ (c = rbrace) := by
        intro h
        rw [h] at hc
        revert hc
        decide
      rw [List.cons_append, tokenize_step, if_neg hcl, if_neg hcw,
          if_neg hcr]
      have htake : (t' ++ l).takeWhile isTermChar = t' := by
        cases hl2 : l with
        | nil =>
            simp only [List.append_nil]
            exact takeWhile_all _ _ (fun a ha => ht a (by simp [ha]))
        | cons d l' =>
            have hd : isTermChar d = false := by
              have h := hl d
              rw [hl2] at h
              exact h (by simp)
            exact takeWhile_append_sat _ _ d _
              (fun a ha => ht a (by simp [ha])) hd
      have hdrop : (t' ++ l).dropWhile isTermChar = l := by
        cases hl2 : l with
        | nil =>
            simp only [List.append_nil]
            exact dropWhile_all _ _ (fun a ha => ht a (by simp [ha]))
        | cons d l' =>
            have hd : isTermChar d = false := by
              have h := hl d
              rw [hl2] at h
              exact h (by simp)
            exact dropWhile_append_sat _ _ d _
              (fun a ha => ht a (by simp [ha])) hd
      rw [htake, hdrop]

/-! ## Decimal text lemmas -/

/-- Bounds on the code of an ASCII digit character. -/
theorem digitChar_bounds (d : Nat) (hd : d < 10) :
    48 ≤ (digitChar d).toNat ∧ (digitChar d).toNat ≤ 57 := by
  interval_cases d <;> decide

/-- Reading back a printed digit. -/
theorem charToDigit_digitChar (d : Nat) (hd : d < 10) :
    charToDigit (digitChar d) = some d := by
  interval_cases d <;> decide

/-- Digit parsing distributes over list append. -/
theorem parseDigitsAux_append (xs ys : List Char) :
    ∀ acc, parseDigitsAux acc (xs ++ ys)
      = match parseDigitsAux acc xs with
        | some a => parseDigitsAux a ys
        | Option.none => Option.none := by
  induction xs with
  | nil => intro acc; rfl
  | cons c cs ih =>
      intro acc
      simp only [List.cons_append, parseDigitsAux]
      cases h : charToDigit c with
      | none => rfl
      | some d => exact ih _

/-- The printed decimal form of `n` is nonempty, consists of ASCII digits,
and parses back to `n` (with the accumulator scaled). -/
theorem natToCharsAux_spec (fuel : Nat) :
    ∀ n, n < fuel →
      natToCharsAux fuel n ≠ []
      ∧ (∀ c ∈ natToCharsAux fuel n, 48 ≤ c.toNat ∧ c.toNat ≤ 57)
      ∧ ∀ acc, parseDigitsAux acc (natToCharsAux fuel n)
          = some (acc * 10 ^ (natToCharsAux fuel n).length + n) := by
  induction fuel using Nat.strong_induction_on with
  | _ fuel ih =>
      intro n hn
      match fuel with
      | 0 => omega
      | fk + 1 =>
          by_cases h10 : n < 10
          · have he : natToCharsAux (fk + 1) n = [digitChar n] := by
              simp only [natToCharsAux, if_pos h10]
            rw [he]
            refine ⟨by simp, ?_, ?_⟩
            · intro c hc
              simp only [List.mem_singleton] at hc
              rw [hc]
              exact digitChar_bounds n h10
            · intro acc
              simp only [parseDigitsAux, charToDigit_digitChar n h10,
                List.length_singleton, pow_one]
          · have he : natToCharsAux (fk + 1) n
                = natToCharsAux fk (n / 10) ++ [digitChar (n % 10)] := by
              simp only [natToCharsAux, if_neg h10]
            have hrec : n / 10 < fk := by omega
            obtain ⟨hne, hbd, hparse⟩ := ih fk (by omega) (n / 10) hrec
            rw [he]
            refine ⟨by simp, ?_, ?_⟩
            · intro c hc
              rcases List.mem_append.mp hc with h | h
              · exact hbd c h
              · simp only [List.mem_singleton] at h
                rw [h]
                exact digitChar_bounds _ (by omega)
            · intro acc
              rw [parseDigitsAux_append, hparse acc]
              dsimp only
              simp only [parseDigitsAux,
                charToDigit_digitChar (n % 10) (by omega)]
              congr 1
              rw [List.length_append, List.length_singleton, pow_succ,
                  ← mul_assoc]
              generalize acc * 10 ^ (natToCharsAux fk (n / 10)).length = K
              omega

/-- Specialization of `natToCharsAux_spec` to `natToChars`. -/
theorem natToChars_spec (n : Nat) :
    natToChars n ≠ []
    ∧ (∀ c ∈ natToChars n, 48 ≤ c.toNat ∧ c.toNat ≤ 57)
    ∧ parseDigitsAux 0 (natToChars n) = some n := by
  obtain ⟨h1, h2, h3⟩ := natToCharsAux_spec (n + 1) n (by omega)
  refine ⟨h1, h2, ?_⟩
  rw [natToChars, h3 0]
  simp

/-- An ASCII digit is none of the delimiter characters of the query syntax
and is a valid term character. -/
theorem digit_char_props (c : Char) (h48 : 48 ≤ c.toNat)
    (h57 : c.toNat ≤ 57) :
    isRustWhitespace c = false ∧ c ≠ ':' ∧ c ≠ '-' ∧ c ≠ rbrace
    ∧ c ≠ '\n' ∧ c ≠ '+' ∧ isTermChar c = true := by
  have hws : isRustWhitespace c = false := by
    simp only [isRustWhitespace, Bool.or_eq_false_iff, Bool.and_eq_false_iff,
      decide_eq_false_iff_not, decide_eq_true_eq]
    omega
  refine ⟨hws, ?_, ?_, ?_, ?_, ?_, ?_⟩
  · intro h; rw [h] at h57; exact absurd h57 (by decide)
  · intro h; rw [h] at h48; exact absurd h48 (by decide)
  · intro h; rw [h] at h57; exact absurd h57 (by decide)
  · intro h; rw [h] at h48; exact absurd h48 (by decide)
  · intro h; rw [h] at h48; exact absurd h48 (by decide)
  · simp only [isTermChar, hws, Bool.not_false, Bool.true_and,
      Bool.and_eq_true, decide_eq_true_eq]
    constructor
    · intro h; rw [h] at h57; exact absurd h57 (by decide)
    · intro h; rw [h] at h57; exact absurd h57 (by decide)

/-- Trimming is the identity on whitespace-free strings. -/
theorem rust_trim_id (s : List Char)
    (h : ∀ c ∈ s, isRustWhitespace c = false) : rust_trim s = s := by
  unfold rust_trim
  rw [dropWhile_head_false _ _ (fun c hc =>
    h c (List.mem_of_mem_head? hc))]
  rw [dropWhile_head_false _ _ (fun c hc =>
    h c (List.mem_reverse.mp (List.mem_of_mem_head? hc)))]
  exact List.reverse_reverse s

/-- Parsing the printed decimal form of an in-bound number. -/
theorem parse_uint_natToChars (bound n : Nat) (hn : n < bound) :
    parse_uint bound (natToChars n) = some n := by
  obtain ⟨hne, hbd, hparse⟩ := natToChars_spec n
  unfold parse_uint
  cases hc : natToChars n with
  | nil => exact absurd hc hne
  | cons c cs =>
      rw [hc] at hparse
      have hcb := hbd c (by rw [hc]; simp)
      have hplus : ¬ (c = '+') := by
        intro h
        rw [h] at hcb
        exact absurd hcb.1 (by decide)
      dsimp only
      rw [if_neg hplus]
      dsimp only
      rw [hparse]
      dsimp only
      rw [if_pos hn]

/-! ## Title kind order lemmas -/

/-- Strict `as_str` order implies the boolean `≤` of the `Ord` instance. -/
theorem kind_lt_le (k1 k2 : TitleKind)
    (h : charListLt k1.as_str k2.as_str = true) : TitleKind.le k1 k2 = true := by
  revert h
  cases k1 <;> cases k2 <;> decide

/-- Strict `as_str` order separates title kinds. -/
theorem kind_lt_ne (k1 k2 : TitleKind)
    (h : charListLt k1.as_str k2.as_str = true) : k1 ≠ k2 := by
  revert h
  cases k1 <;> cases k2 <;> decide

/-- Sorting is the identity on a strictly sorted kind list. -/
theorem sortKinds_sorted (ks : List TitleKind)
    (h : ks.Pairwise (fun a b => charListLt a.as_str b.as_str = true)) :
    sortKinds ks = ks := by
  apply List.Sorted.insertionSort_eq
  exact h.imp (fun hab => kind_lt_le _ _ hab)

/-- A strictly sorted kind list has no duplicates. -/
theorem sorted_kinds_nodup (ks : List TitleKind)
    (h : ks.Pairwise (fun a b => charListLt a.as_str b.as_str = true)) :
    ks.Nodup :=
  h.imp (fun hab => kind_lt_ne _ _ hab)

/-! ## Range round trip -/

/-- The printed digits satisfy every delimiter-freedom fact at once. -/
theorem natToChars_props (n : Nat) :
    ∀ c ∈ natToChars n,
      isRustWhitespace c = false ∧ c ≠ ':' ∧ c ≠ '-' ∧ c ≠ rbrace
      ∧ c ≠ '\n' ∧ c ≠ '+' ∧ isTermChar c = true := by
  intro c hc
  obtain ⟨h1, h2⟩ := (natToChars_spec n).2.1 c hc
  exact digit_char_props c h1 h2

/-- Digits are kept whole by a split at the first dash. -/
theorem natToChars_no_dash (n : Nat) :
    ∀ c ∈ natToChars n, (fun c => decide (c ≠ '-')) c = true := by
  intro c hc
  simpa using (natToChars_props n c hc).2.2.1

/-- Parsing the `Display` form of a range returns the range, for in-bound
endpoint values. -/
theorem range_roundtrip (bound : Nat) (r : QRange)
    (hs : ∀ x ∈ r.start, x < bound) (he : ∀ x ∈ r.stop, x < bound) :
    range_from_chars bound (range_to_chars r) = some r := by
  obtain ⟨os, oe⟩ := r
  cases os with
  | none =>
      cases oe with
      | none => rfl
      | some e =>
          have hee : e < bound := he e (by simp)
          show range_from_chars bound ('-' :: natToChars e) = _
          unfold range_from_chars
          rw [dropWhile_head_false _ _
            (by intro a ha; simp only [List.head?_cons, Option.mem_def,
                  Option.some.injEq] at ha; rw [← ha]; decide)]
          dsimp only
          have htw : ('-' :: natToChars e).takeWhile
              (fun c => decide (c ≠ '-')) = [] := by
            simp [List.takeWhile_cons]
          rw [htw]
          show (match (rust_trim []).isEmpty, (rust_trim (natToChars e)).isEmpty
                with
                | true, true => some QRange.nullRange
                | true, false =>
                    match parse_uint bound (rust_trim (natToChars e)) with
                    | some e => some ⟨Option.none, some e⟩
                    | Option.none => Option.none
                | false, true =>
                    match parse_uint bound (rust_trim []) with
                    | some v => some ⟨some v, Option.none⟩
                    | Option.none => Option.none
                | false, false =>
                    match parse_uint bound (rust_trim []),
                      parse_uint bound (rust_trim (natToChars e)) with
                    | some v, some e => some ⟨some v, some e⟩
                    | _, _ => Option.none) = some ⟨Option.none, some e⟩
          rw [rust_trim_id (natToChars e)
              (fun c hc => (natToChars_props e c hc).1)]
          have hne : (natToChars e).isEmpty = false := by
            cases hc : natToChars e with
            | nil => exact absurd hc (natToChars_spec e).1
            | cons _ _ => rfl
          rw [hne, show (rust_trim ([] : List Char)).isEmpty = true from rfl]
          dsimp only
          rw [parse_uint_natToChars bound e hee]
  | some s =>
      have hss : s < bound := hs s (by simp)
      have hdig := natToChars_no_dash s
      have hnes : (natToChars s).isEmpty = false := by
        cases hc : natToChars s with
        | nil => exact absurd hc (natToChars_spec s).1
        | cons _ _ => rfl
      have htrims := rust_trim_id (natToChars s)
        (fun c hc => (natToChars_props s c hc).1)
      cases oe with
      | none =>
          show range_from_chars bound (natToChars s ++ ['-']) = _
          unfold range_from_chars
          rw [dropWhile_append_sat _ _ '-' _ hdig (by decide),
              takeWhile_append_sat _ _ '-' _ hdig (by decide)]
          dsimp only
          rw [htrims, hnes,
              show (rust_trim ([] : List Char)).isEmpty = true from rfl]
          dsimp only
          rw [parse_uint_natToChars bound s hss]
      | some e =>
          have hee : e < bound := he e (by simp)
          by_cases hse : s = e
          · subst hse
            have hshow2 : range_to_chars ⟨some s, some s⟩ = natToChars s := by
              unfold range_to_chars
              dsimp only
              rw [if_pos rfl]
            rw [hshow2]
            unfold range_from_chars
            rw [dropWhile_all _ _ hdig]
            dsimp only
            rw [parse_uint_natToChars bound s hss]
          · have hdige := natToChars_no_dash e
            have hnee : (natToChars e).isEmpty = false := by
              cases hc : natToChars e with
              | nil => exact absurd hc (natToChars_spec e).1
              | cons _ _ => rfl
            have htrime := rust_trim_id (natToChars e)
              (fun c hc => (natToChars_props e c hc).1)
            have hshow : range_to_chars ⟨some s, some e⟩
                = natToChars s ++ '-' :: natToChars e := by
              unfold range_to_chars
              dsimp only
              rw [if_neg hse]
            rw [hshow]
            unfold range_from_chars
            rw [dropWhile_append_sat _ _ '-' _ hdig (by decide),
                takeWhile_append_sat _ _ '-' _ hdig (by decide)]
            dsimp only
            rw [htrims, htrime, hnes, hnee]
            dsimp only
            rw [parse_uint_natToChars bound s hss,
                parse_uint_natToChars bound e hee]

/-- The printed range is nonempty and free of the directive delimiters. -/
theorem range_chars_facts (r : QRange) :
    range_to_chars r ≠ []
    ∧ ∀ c ∈ range_to_chars r,
        isRustWhitespace c = false ∧ c ≠ ':' ∧ c ≠ rbrace ∧ c ≠ '\n' := by
  have hdash : isRustWhitespace '-' = false ∧ ('-' : Char) ≠ ':'
      ∧ ('-' : Char) ≠ rbrace ∧ ('-' : Char) ≠ '\n' := by decide
  have hdigits : ∀ n : Nat, ∀ c ∈ natToChars n,
      isRustWhitespace c = false ∧ c ≠ ':' ∧ c ≠ rbrace ∧ c ≠ '\n' := by
    intro n c hc
    obtain ⟨h1, h2, _, h4, h5, _, _⟩ := natToChars_props n c hc
    exact ⟨h1, h2, h4, h5⟩
  obtain ⟨os, oe⟩ := r
  cases os with
  | none =>
      cases oe with
      | none =>
          have hr : range_to_chars ⟨Option.none, Option.none⟩ = ['-'] := rfl
          rw [hr]
          exact ⟨by simp, by intro c hc; simp at hc; rw [hc]; exact hdash⟩
      | some e =>
          have hr : range_to_chars ⟨Option.none, some e⟩
              = '-' :: natToChars e := rfl
          rw [hr]
          refine ⟨by simp, ?_⟩
          intro c hc
          simp only [List.mem_cons] at hc
          rcases hc with hc | hc
          · rw [hc]; exact hdash
          · exact hdigits e c hc
  | some s =>
      cases oe with
      | none =>
          have hr : range_to_chars ⟨some s, Option.none⟩
              = natToChars s ++ ['-'] := rfl
          rw [hr]
          refine ⟨by simp, ?_⟩
          intro c hc
          simp only [List.mem_append, List.mem_singleton] at hc
          rcases hc with hc | hc
          · exact hdigits s c hc
          · rw [hc]; exact hdash
      | some e =>
          by_cases hse : s = e
          · subst hse
            have hr : range_to_chars ⟨some s, some s⟩ = natToChars s := by
              unfold range_to_chars
              dsimp only
              rw [if_pos rfl]
            rw [hr]
            exact ⟨(natToChars_spec s).1, hdigits s⟩
          · have hr : range_to_chars ⟨some s, some e⟩
                = natToChars s ++ '-' :: natToChars e := by
              unfold range_to_chars
              dsimp only
              rw [if_neg hse]
            rw [hr]
            refine ⟨by simp [(natToChars_spec s).1], ?_⟩
            intro c hc
            simp only [List.mem_append, List.mem_cons] at hc
            rcases hc with hc | hc | hc
            · exact hdigits s c hc
            · rw [hc]; exact hdash
            · exact hdigits e c hc

/-! ## Directive application lemmas -/

/-- The scorer directive restores the (possibly absent) name scorer. -/
theorem apply_scorer_body (q0 q : Query) :
    apply_directive q0 (scorer_body q)
      = some { q0 with name_scorer := q.name_scorer } := by
  unfold scorer_body
  cases q.name_scorer with
  | none => rfl
  | some s => cases s <;> rfl

/-- The similarity directive restores the similarity function. -/
theorem apply_sim (q : Query) (sim : Similarity) :
    apply_directive q (str "sim:" ++ sim.as_str)
      = some { q with similarity := sim } := by
  cases sim <;> rfl

/-- A kind directive invokes the `kind` builder with the parsed kind. -/
theorem apply_kind_dir (q : Query) (k : TitleKind) :
    apply_directive q k.as_str = some (q.kind k) := by
  cases k <;> rfl

/-- Absence of newlines in printed digits. -/
theorem natToChars_noNl (n : Nat) : hasNl (natToChars n) = false := by
  unfold hasNl
  rw [List.any_eq_false]
  intro c hc
  simpa using (natToChars_props n c hc).2.2.2.2.1

/-- The size directive restores the size, for `usize` values. -/
theorem apply_size (q : Query) (n : Nat) (hn : n < 2 ^ 64) :
    apply_directive q (str "size:" ++ natToChars n)
      = some { q with size := n } := by
  have htrimd := rust_trim_id (natToChars n)
    (fun c hc => (natToChars_props n c hc).1)
  have hnempty : (natToChars n).isEmpty = false := by
    cases hc : natToChars n with
    | nil => exact absurd hc (natToChars_spec n).1
    | cons _ _ => rfl
  have hpd : parse_directive (str "size:" ++ natToChars n)
      = RDirective.named (str "size") (natToChars n) := by
    unfold parse_directive
    have hsplit : str "size:" ++ natToChars n
        = str "size" ++ ':' :: natToChars n := rfl
    rw [hsplit]
    have hp : ∀ c ∈ str "size", (fun c => decide (c ≠ ':')) c = true := by
      decide
    rw [takeWhile_append_sat _ _ ':' _ hp (by decide),
        dropWhile_append_sat _ _ ':' _ hp (by decide)]
    dsimp only
    rw [if_pos ⟨rfl, hnempty, natToChars_noNl n⟩]
  unfold apply_directive
  rw [hpd]
  dsimp only
  rw [show rust_trim (str "size") = str "size" from rfl, htrimd,
      if_pos rfl, parse_uint_natToChars _ n hn]

/-- Shared part of the four range-directive lemmas: the directive named
`label` with a printed range as value parses back to `named`. -/
theorem range_directive_parses (label : List Char) (r : QRange)
    (hlabne : label ≠ [])
    (hlab : ∀ c ∈ label, (fun c => decide (c ≠ ':')) c = true) :
    parse_directive (label ++ ':' :: range_to_chars r)
      = RDirective.named label (range_to_chars r) := by
  obtain ⟨hrne, hrprops⟩ := range_chars_facts r
  have hnempty : (range_to_chars r).isEmpty = false := by
    cases hc : range_to_chars r with
    | nil => exact absurd hc hrne
    | cons _ _ => rfl
  have hnl : hasNl (range_to_chars r) = false := by
    unfold hasNl
    rw [List.any_eq_false]
    intro c hc
    simpa using (hrprops c hc).2.2.2
  have hlabempty : label.isEmpty = false := by
    cases hc : label with
    | nil => exact absurd hc hlabne
    | cons _ _ => rfl
  unfold parse_directive
  rw [takeWhile_append_sat _ _ ':' _ hlab (by decide),
      dropWhile_append_sat _ _ ':' _ hlab (by decide)]
  dsimp only
  rw [if_pos ⟨hlabempty, hnempty, hnl⟩]

/-- Trimming a printed range is the identity. -/
theorem range_chars_trim (r : QRange) :
    rust_trim (range_to_chars r) = range_to_chars r :=
  rust_trim_id _ (fun c hc => ((range_chars_facts r).2 c hc).1)

/-- The year directive restores the year range. -/
theorem apply_year (q : Query) (r : QRange)
    (hs : ∀ x ∈ r.start, x < 2 ^ 32) (he : ∀ x ∈ r.stop, x < 2 ^ 32) :
    apply_directive q (str "year:" ++ range_to_chars r)
      = some { q with year := r } := by
  have hpd := range_directive_parses (str "year") r (by decide) (by decide)
  unfold apply_directive
  rw [show str "year:" ++ range_to_chars r
      = str "year" ++ ':' :: range_to_chars r from rfl, hpd]
  dsimp only
  rw [show rust_trim (str "year") = str "year" from rfl, range_chars_trim,
      if_neg (by decide), if_pos rfl, range_roundtrip _ r hs he]

/-- The votes directive restores the votes range. -/
theorem apply_votes (q : Query) (r : QRange)
    (hs : ∀ x ∈ r.start, x < 2 ^ 32) (he : ∀ x ∈ r.stop, x < 2 ^ 32) :
    apply_directive q (str "votes:" ++ range_to_chars r)
      = some { q with votes := r } := by
  have hpd := range_directive_parses (str "votes") r (by decide) (by decide)
  unfold apply_directive
  rw [show str "votes:" ++ range_to_chars r
      = str "votes" ++ ':' :: range_to_chars r from rfl, hpd]
  dsimp only
  rw [show rust_trim (str "votes") = str "votes" from rfl, range_chars_trim,
      if_neg (by decide), if_neg (by decide), if_pos rfl,
      range_roundtrip _ r hs he]

/-- The season directive restores the season range. -/
theorem apply_season (q : Query) (r : QRange)
    (hs : ∀ x ∈ r.start, x < 2 ^ 32) (he : ∀ x ∈ r.stop, x < 2 ^ 32) :
    apply_directive q (str "season:" ++ range_to_chars r)
      = some { q with season := r } := by
  have hpd := range_directive_parses (str "season") r (by decide) (by decide)
  unfold apply_directive
  rw [show str "season:" ++ range_to_chars r
      = str "season" ++ ':' :: range_to_chars r from rfl, hpd]
  dsimp only
  rw [show rust_trim (str "season") = str "season" from rfl, range_chars_trim,
      if_neg (by decide), if_neg (by decide), if_neg (by decide), if_pos rfl,
      range_roundtrip _ r hs he]

/-- The episode directive restores the episode range. -/
theorem apply_episode (q : Query) (r : QRange)
    (hs : ∀ x ∈ r.start, x < 2 ^ 32) (he : ∀ x ∈ r.stop, x < 2 ^ 32) :
    apply_directive q (str "episode:" ++ range_to_chars r)
      = some { q with episode := r } := by
  have hpd := range_directive_parses (str "episode") r (by decide) (by decide)
  unfold apply_directive
  rw [show str "episode:" ++ range_to_chars r
      = str "episode" ++ ':' :: range_to_chars r from rfl, hpd]
  dsimp only
  rw [show rust_trim (str "episode") = str "episode" from rfl,
      range_chars_trim, if_neg (by decide), if_neg (by decide),
      if_neg (by decide), if_neg (by decide), if_pos rfl,
      range_roundtrip _ r hs he]

/-- The show directive restores the tvshow id, for trimmed,
newline-free, nonempty ids. -/
theorem apply_show (q : Query) (id : List Char) (hne : id ≠ [])
    (htrim : rust_trim id = id) (hnl : ∀ c ∈ id, c ≠ '\n') :
    apply_directive q (str "show:" ++ id)
      = some { q with tvshow_id := some id } := by
  have hnempty : id.isEmpty = false := by
    cases hc : id with
    | nil => exact absurd hc hne
    | cons _ _ => rfl
  have hnonl : hasNl id = false := by
    unfold hasNl
    rw [List.any_eq_false]
    intro c hc
    simpa using hnl c hc
  have hpd : parse_directive (str "show:" ++ id)
      = RDirective.named (str "show") id := by
    unfold parse_directive
    have hsplit : str "show:" ++ id = str "show" ++ ':' :: id := rfl
    rw [hsplit]
    have hp : ∀ c ∈ str "show", (fun c => decide (c ≠ ':')) c = true := by
      decide
    rw [takeWhile_append_sat _ _ ':' _ hp (by decide),
        dropWhile_append_sat _ _ ':' _ hp (by decide)]
    dsimp only
    rw [if_pos ⟨rfl, hnempty, hnonl⟩]
  unfold apply_directive
  rw [hpd]
  dsimp only
  rw [show rust_trim (str "show") = str "show" from rfl, htrim,
      if_neg (by decide), if_neg (by decide), if_neg (by decide),
      if_neg (by decide), if_neg (by decide),
      if_pos (Or.inr (Or.inr rfl))]

/-! ## Directive-list and token-list processing -/

/-- Directive application distributes over list append. -/
theorem apply_dirs_append (A B : List (List Char)) : ∀ q : Query,
    apply_dirs q (A ++ B)
      = match apply_dirs q A with
        | some q' => apply_dirs q' B
        | Option.none => Option.none := by
  induction A with
  | nil => intro q; rfl
  | cons b bs ih =>
      intro q
      simp only [List.cons_append, apply_dirs]
      cases apply_directive q b with
      | none => rfl
      | some q' => exact ih q'

/-- Applying a list of kind directives folds the `kind` builder. -/
theorem apply_dirs_kinds (ks : List TitleKind) : ∀ q : Query,
    apply_dirs q (ks.map TitleKind.as_str)
      = some (ks.foldl Query.kind q) := by
  induction ks with
  | nil => intro q; rfl
  | cons k ks ih =>
      intro q
      simp only [List.map_cons, apply_dirs, List.foldl_cons]
      rw [apply_kind_dir]
      exact ih (q.kind k)

/-- Folding the `kind` builder over fresh, duplicate-free kinds appends
them. -/
theorem foldl_kind_eq (ks : List TitleKind) : ∀ q : Query, ks.Nodup →
    (∀ k ∈ ks, k ∉ q.kinds) →
    ks.foldl Query.kind q = { q with kinds := q.kinds ++ ks } := by
  induction ks with
  | nil =>
      intro q _ _
      rw [List.append_nil]
      rfl
  | cons k ks ih =>
      intro q hnd hnin
      simp only [List.foldl_cons]
      have hk : ¬ (q.kinds.contains k = true) := by
        rw [List.elem_iff]
        exact hnin k (by simp)
      have hq : q.kind k = { q with kinds := q.kinds ++ [k] } := by
        unfold Query.kind
        rw [if_neg hk]
      rw [hq, ih _ (List.Nodup.of_cons hnd) ?_]
      · rw [List.append_assoc, List.singleton_append]
      · intro k' hk'
        simp only [List.mem_append, List.mem_singleton]
        rintro (h | h)
        · exact hnin k' (by simp [hk']) h
        · rw [h] at hk'
          exact (List.nodup_cons.mp hnd).1 hk'

/-- Processing a run of directive tokens applies the directives in
order. -/
theorem parse_tokens_dirs (bs : List (List Char)) :
    ∀ (toks : List QTok) (q : Query) (terms : List (List Char)),
      parse_tokens (bs.map QTok.directive ++ toks) q terms
        = match apply_dirs q bs with
          | some q' => parse_tokens toks q' terms
          | Option.none => Option.none := by
  induction bs with
  | nil => intros; rfl
  | cons b bs ih =>
      intro toks q terms
      simp only [List.map_cons, List.cons_append, parse_tokens, apply_dirs]
      cases apply_directive q b with
      | none => rfl
      | some q' => exact ih toks q' terms

/-- Processing a run of term tokens accumulates them into the name. -/
theorem parse_tokens_terms (toks : List (List Char)) :
    ∀ (q : Query) (terms0 : List (List Char)),
      parse_tokens (toks.map QTok.term) q terms0
        = some (if (terms0 ++ toks).isEmpty then q
                else q.withName (join_space (terms0 ++ toks))) := by
  induction toks with
  | nil =>
      intro q terms0
      simp only [List.map_nil, parse_tokens, List.append_nil]
  | cons t ts ih =>
      intro q terms0
      simp only [List.map_cons, parse_tokens]
      rw [ih q (terms0 ++ [t]), List.append_assoc, List.singleton_append]

/-! ## Tokenizing the printed query -/

/-- Tokenizing the space-joined terms yields exactly the term tokens. -/
theorem tokenize_join_space (toks : List (List Char))
    (h : ∀ t ∈ toks, t ≠ [] ∧ ∀ c ∈ t, isTermChar c = true) :
    tokenize (join_space toks) = toks.map QTok.term := by
  induction toks with
  | nil => rfl
  | cons t ts ih =>
      cases ts with
      | nil =>
          have hstep := tokenize_term_step t [] (h t (by simp)).1
            (fun c hc => (h t (by simp)).2 c hc) (by simp)
          rw [List.append_nil] at hstep
          rw [show join_space [t] = t from rfl, hstep]
          rfl
      | cons t2 ts2 =>
          rw [show join_space (t :: t2 :: ts2)
              = t ++ ' ' :: join_space (t2 :: ts2) from rfl]
          rw [tokenize_term_step t (' ' :: join_space (t2 :: ts2))
            (h t (by simp)).1 (fun c hc => (h t (by simp)).2 c hc)
            (by intro c hc
                simp only [List.head?_cons, Option.mem_def,
                  Option.some.injEq] at hc
                rw [← hc]
                decide)]
          have h2 : t2 ≠ [] := (h t2 (by simp)).1
          have hjoin_head : ∀ c ∈ (join_space (t2 :: ts2)).head?,
              isRustWhitespace c = false := by
            intro c hc
            cases ht2 : t2 with
            | nil => exact absurd ht2 h2
            | cons c2 t2' =>
                have hc2 : isTermChar c2 = true := by
                  apply (h t2 (by simp)).2
                  rw [ht2]
                  simp
                have hhd : (join_space (t2 :: ts2)).head? = some c2 := by
                  cases ts2 with
                  | nil => rw [show join_space [t2] = t2 from rfl, ht2]; rfl
                  | cons t3 ts3 =>
                      rw [show join_space (t2 :: t3 :: ts3)
                          = t2 ++ ' ' :: join_space (t3 :: ts3) from rfl,
                        ht2]
                      rfl
                rw [hhd] at hc
                simp only [Option.mem_def, Option.some.injEq] at hc
                rw [← hc]
                unfold isTermChar at hc2
                cases hw : isRustWhitespace c2 with
                | false => rfl
                | true => rw [hw] at hc2; simp at hc2
          rw [tokenize_space_step _ hjoin_head,
              ih (fun x hx => h x (by simp [hx]))]
          rfl

/-- Tokenizing a sequence of space-prefixed directive chunks. -/
theorem tokenize_chunkConcat (bs : List (List Char)) : ∀ tail : List Char,
    (∀ x ∈ bs, x ≠ [] ∧ ∀ c ∈ x, c ≠ rbrace) →
    tokenize (chunkConcat bs ++ tail)
      = bs.map QTok.directive ++ tokenize tail := by
  induction bs with
  | nil => intro tail _; rfl
  | cons b bs ih =>
      intro tail hwf
      have hassoc : chunkConcat (b :: bs) ++ tail
          = ' ' :: lbrace :: (b ++ rbrace :: (chunkConcat bs ++ tail)) := by
        show (dirChunk b ++ chunkConcat bs) ++ tail = _
        unfold dirChunk
        simp
      rw [hassoc,
          tokenize_space_step _ (by intro c hc; simp at hc; subst hc; decide),
          tokenize_dir_step b _ (hwf b (by simp)).1
            (fun c hc => (hwf b (by simp)).2 c hc),
          ih tail (fun x hx => hwf x (by simp [hx]))]
      rfl

/-- Tokenizing the whole printed query. -/
theorem tokenize_query_to_chars (q : Query)
    (hwf : ∀ x ∈ query_dir_bodies q, x ≠ [] ∧ ∀ c ∈ x, c ≠ rbrace) :
    tokenize (query_to_chars q)
      = (query_dir_bodies q).map QTok.directive ++ tokenize (name_tail q) := by
  have hassoc : query_to_chars q
      = lbrace :: (scorer_body q
          ++ rbrace :: (chunkConcat (query_dir_bodies q).tail
              ++ name_tail q)) := by
    show firstChunk (scorer_body q)
        ++ chunkConcat (query_dir_bodies q).tail ++ name_tail q = _
    unfold firstChunk
    simp
  have hmemhead : scorer_body q ∈ query_dir_bodies q :=
    List.mem_cons_self _ _
  rw [hassoc,
      tokenize_dir_step _ _ (hwf (scorer_body q) hmemhead).1
        (fun c hc => (hwf (scorer_body q) hmemhead).2 c hc),
      tokenize_chunkConcat _ _
        (fun x hx => hwf x (List.mem_of_mem_tail hx))]
  rfl

/-! ## Segment lemmas for the printed directive list -/

/-- One successful directive step inside `apply_dirs`. -/
theorem apply_dirs_cons_some (q q' : Query) (b : List Char)
    (bs : List (List Char)) (h : apply_directive q b = some q') :
    apply_dirs q (b :: bs) = apply_dirs q' bs := by
  simp only [apply_dirs, h]

/-- One successful segment inside `apply_dirs`. -/
theorem apply_dirs_append_some (A B : List (List Char)) (q q' : Query)
    (h : apply_dirs q A = some q') :
    apply_dirs q (A ++ B) = apply_dirs q' B := by
  rw [apply_dirs_append, h]

/-- An unbounded range is the null range. -/
theorem qrange_is_none_eq (r : QRange) (h : r.is_none = true) :
    r = QRange.nullRange := by
  obtain ⟨s, e⟩ := r
  unfold QRange.is_none at h
  simp only [Bool.and_eq_true, Option.isNone_iff_eq_none] at h
  obtain ⟨h1, h2⟩ := h
  rw [h1, h2]
  rfl

/-- Applying the sorted-kinds segment appends the kinds to an empty kind
list. -/
theorem apply_dirs_kinds_sorted (q0 : Query) (ks : List TitleKind)
    (h : ks.Pairwise (fun a b => charListLt a.as_str b.as_str = true))
    (hq : q0.kinds = []) :
    apply_dirs q0 ((sortKinds ks).map TitleKind.as_str)
      = some { q0 with kinds := ks } := by
  rw [sortKinds_sorted ks h, apply_dirs_kinds,
      foldl_kind_eq ks q0 (sorted_kinds_nodup ks h)
        (fun k _ => by rw [hq]; exact List.not_mem_nil k), hq,
      List.nil_append]

/-- Applying the optional year segment restores the year range. -/
theorem apply_dirs_year (q0 : Query) (r : QRange)
    (hs : ∀ x ∈ r.start, x < 2 ^ 32) (he : ∀ x ∈ r.stop, x < 2 ^ 32)
    (hq : q0.year = QRange.nullRange) :
    apply_dirs q0 (opt_range_body (str "year:") r)
      = some { q0 with year := r } := by
  unfold opt_range_body
  by_cases hrn : r.is_none = true
  · rw [if_pos hrn, qrange_is_none_eq r hrn, ← hq]
    rfl
  · rw [if_neg hrn, apply_dirs_cons_some _ _ _ _ (apply_year q0 r hs he)]
    rfl

/-- Applying the optional votes segment restores the votes range. -/
theorem apply_dirs_votes (q0 : Query) (r : QRange)
    (hs : ∀ x ∈ r.start, x < 2 ^ 32) (he : ∀ x ∈ r.stop, x < 2 ^ 32)
    (hq : q0.votes = QRange.nullRange) :
    apply_dirs q0 (opt_range_body (str "votes:") r)
      = some { q0 with votes := r } := by
  unfold opt_range_body
  by_cases hrn : r.is_none = true
  · rw [if_pos hrn, qrange_is_none_eq r hrn, ← hq]
    rfl
  · rw [if_neg hrn, apply_dirs_cons_some _ _ _ _ (apply_votes q0 r hs he)]
    rfl

/-- Applying the optional season segment restores the season range. -/
theorem apply_dirs_season (q0 : Query) (r : QRange)
    (hs : ∀ x ∈ r.start, x < 2 ^ 32) (he : ∀ x ∈ r.stop, x < 2 ^ 32)
    (hq : q0.season = QRange.nullRange) :
    apply_dirs q0 (opt_range_body (str "season:") r)
      = some { q0 with season := r } := by
  unfold opt_range_body
  by_cases hrn : r.is_none = true
  · rw [if_pos hrn, qrange_is_none_eq r hrn, ← hq]
    rfl
  · rw [if_neg hrn, apply_dirs_cons_some _ _ _ _ (apply_season q0 r hs he)]
    rfl

/-- Applying the optional episode segment restores the episode range. -/
theorem apply_dirs_episode (q0 : Query) (r : QRange)
    (hs : ∀ x ∈ r.start, x < 2 ^ 32) (he : ∀ x ∈ r.stop, x < 2 ^ 32)
    (hq : q0.episode = QRange.nullRange) :
    apply_dirs q0 (opt_range_body (str "episode:") r)
      = some { q0 with episode := r } := by
  unfold opt_range_body
  by_cases hrn : r.is_none = true
  · rw [if_pos hrn, qrange_is_none_eq r hrn, ← hq]
    rfl
  · rw [if_neg hrn, apply_dirs_cons_some _ _ _ _ (apply_episode q0 r hs he)]
    rfl

/-- Applying the optional show segment restores the tvshow id. -/
theorem apply_dirs_show (q0 q : Query)
    (htv : ∀ id ∈ q.tvshow_id, id ≠ [] ∧ rust_trim id = id
        ∧ ∀ c ∈ id, c ≠ rbrace ∧ c ≠ '\n')
    (hq : q0.tvshow_id = Option.none) :
    apply_dirs q0 (show_body q)
      = some { q0 with tvshow_id := q.tvshow_id } := by
  unfold show_body
  rcases Option.eq_none_or_eq_some q.tvshow_id with htvq | ⟨id, htvq⟩
  · rw [htvq]
    show some q0 = some { q0 with tvshow_id := Option.none }
    rw [← hq]
  · rw [htvq]
    obtain ⟨h1, h2, h3⟩ := htv id (by rw [htvq]; simp)
    dsimp only
    rw [apply_dirs_cons_some _ _ _ _
      (apply_show q0 id h1 h2 (fun c hc => (h3 c hc).2))]
    rfl

/-- The head of a space-joined term list is a term character, hence not
whitespace. -/
theorem join_space_head_not_ws (toks : List (List Char))
    (h : ∀ t ∈ toks, t ≠ [] ∧ ∀ c ∈ t, isTermChar c = true) :
    ∀ c ∈ (join_space toks).head?, isRustWhitespace c = false := by
  intro c hc
  cases toks with
  | nil => simp [join_space] at hc
  | cons t ts =>
      cases ht : t with
      | nil => exact absurd ht (h t (by simp)).1
      | cons c2 t2 =>
          have hc2 : isTermChar c2 = true := by
            apply (h t (by simp)).2
            rw [ht]
            simp
          have hhd : (join_space (t :: ts)).head? = some c2 := by
            cases ts with
            | nil => rw [show join_space [t] = t from rfl, ht]; rfl
            | cons t3 ts3 =>
                rw [show join_space (t :: t3 :: ts3)
                    = t ++ ' ' :: join_space (t3 :: ts3) from rfl, ht]
                rfl
          rw [hhd] at hc
          simp only [Option.mem_def, Option.some.injEq] at hc
          rw [← hc]
          unfold isTermChar at hc2
          cases hw : isRustWhitespace c2 with
          | false => rfl
          | true => rw [hw] at hc2; simp at hc2

/-- Wellformedness of every printed directive body: nonempty and free of
closing braces. -/
theorem append_ne_nil_left (s t : List Char) (h : s ≠ []) : s ++ t ≠ [] := by
  cases s with
  | nil => exact absurd rfl h
  | cons a s => simp

theorem query_bodies_wf (q : Query)
    (htv : ∀ id ∈ q.tvshow_id, id ≠ [] ∧ ∀ c ∈ id, c ≠ rbrace) :
    ∀ x ∈ query_dir_bodies q, x ≠ [] ∧ ∀ c ∈ x, c ≠ rbrace := by
  have hkind : ∀ k : TitleKind, k.as_str ≠ [] ∧ ∀ c ∈ k.as_str, c ≠ rbrace := by
    intro k
    cases k <;> decide
  have hrange : ∀ label : List Char, label ≠ [] →
      (∀ c ∈ label, c ≠ rbrace) → ∀ r : QRange,
      ∀ x ∈ opt_range_body label r, x ≠ [] ∧ ∀ c ∈ x, c ≠ rbrace := by
    intro label hlne hlc r x hx
    unfold opt_range_body at hx
    by_cases hrn : r.is_none = true
    · rw [if_pos hrn] at hx
      simp at hx
    · rw [if_neg hrn] at hx
      simp only [List.mem_singleton] at hx
      subst hx
      refine ⟨by simp [hlne], ?_⟩
      intro c hc
      rcases List.mem_append.mp hc with h | h
      · exact hlc c h
      · exact ((range_chars_facts r).2 c h).2.2.1
  intro x hx
  unfold query_dir_bodies at hx
  simp only [List.mem_cons, List.mem_append, or_assoc] at hx
  rcases hx with hx | hx | hx | hx | hx | hx | hx | hx | hx
  · subst hx
    unfold scorer_body
    cases q.name_scorer with
    | none => decide
    | some s => cases s <;> decide
  · subst hx
    refine ⟨append_ne_nil_left _ _ (by decide), ?_⟩
    intro c hc
    rcases List.mem_append.mp hc with h | h
    · clear hc
      revert c h
      decide
    · revert c
      cases q.similarity <;> decide
  · subst hx
    refine ⟨append_ne_nil_left _ _ (by decide), ?_⟩
    intro c hc
    rcases List.mem_append.mp hc with h | h
    · clear hc
      revert c h
      decide
    · exact (natToChars_props q.size c h).2.2.2.1
  · obtain ⟨k, _, hk⟩ := List.mem_map.mp hx
    rw [← hk]
    exact hkind k
  · exact hrange _ (by decide) (by decide) _ x hx
  · exact hrange _ (by decide) (by decide) _ x hx
  · exact hrange _ (by decide) (by decide) _ x hx
  · exact hrange _ (by decide) (by decide) _ x hx
  · unfold show_body at hx
    rcases Option.eq_none_or_eq_some q.tvshow_id with htvq | ⟨id, htvq⟩
    · rw [htvq] at hx
      simp at hx
    · rw [htvq] at hx
      simp only [List.mem_singleton] at hx
      subst hx
      obtain ⟨hne, hbr⟩ := htv id (by rw [htvq]; simp)
      refine ⟨append_ne_nil_left _ _ (by decide), ?_⟩
      intro c hc
      rcases List.mem_append.mp hc with h | h
      · clear hc
        revert c h
        decide
      · exact hbr c h

/-! ## C3: query print/parse round trip -/

/-- C3 counterexample: title kinds added out of sorted order do not survive
the round trip, because `Display` prints kinds sorted while `Query`
equality compares the kind vectors positionally. The query built as
`Query::new().kind(TVSeries).kind(Movie)` parses back with kinds
`[Movie, TVSeries]`. -/
theorem query_roundtrip_kind_order :
    query_from_chars (query_to_chars
        ((Query.new.kind TitleKind.TVSeries).kind TitleKind.Movie))
      ≠ some ((Query.new.kind TitleKind.TVSeries).kind TitleKind.Movie) := by
  decide

/-- C3 (amended): `parse(format(q)) = q` holds for every query whose kind
list is strictly sorted in the `Ord` (string) order, whose size fits
`usize` and whose range endpoints fit `u32` (automatic for queries built
through the typed builder API), whose name, when present, is a nonempty
single-space join of nonempty brace-free whitespace-free words, and whose
tvshow id, when present, is nonempty, trimmed and free of `}` and
newlines. -/
theorem query_roundtrip (q : Query)
    (hkinds : q.kinds.Pairwise
      (fun a b => charListLt a.as_str b.as_str = true))
    (hsize : q.size < 2 ^ 64)
    (hyear : (∀ x ∈ q.year.start, x < 2 ^ 32)
        ∧ (∀ x ∈ q.year.stop, x < 2 ^ 32))
    (hvotes : (∀ x ∈ q.votes.start, x < 2 ^ 32)
        ∧ (∀ x ∈ q.votes.stop, x < 2 ^ 32))
    (hseason : (∀ x ∈ q.season.start, x < 2 ^ 32)
        ∧ (∀ x ∈ q.season.stop, x < 2 ^ 32))
    (hepisode : (∀ x ∈ q.episode.start, x < 2 ^ 32)
        ∧ (∀ x ∈ q.episode.stop, x < 2 ^ 32))
    (hname : ∀ nm ∈ q.name, ∃ toks : List (List Char), toks ≠ []
        ∧ (∀ t ∈ toks, t ≠ [] ∧ ∀ c ∈ t, isTermChar c = true)
        ∧ nm = join_space toks)
    (htv : ∀ id ∈ q.tvshow_id, id ≠ [] ∧ rust_trim id = id
        ∧ ∀ c ∈ id, c ≠ rbrace ∧ c ≠ '\n') :
    query_from_chars (query_to_chars q) = some q := by
  have hwf : ∀ x ∈ query_dir_bodies q, x ≠ [] ∧ ∀ c ∈ x, c ≠ rbrace :=
    query_bodies_wf q (fun id hid =>
      ⟨(htv id hid).1, fun c hc => ((htv id hid).2.2 c hc).1⟩)
  have hdirs : apply_dirs Query.new (query_dir_bodies q)
      = some { q with name := Option.none } := by
    unfold query_dir_bodies
    simp only [List.append_assoc]
    rw [apply_dirs_cons_some _ _ _ _ (apply_scorer_body _ q),
        apply_dirs_cons_some _ _ _ _ (apply_sim _ q.similarity),
        apply_dirs_cons_some _ _ _ _ (apply_size _ q.size hsize),
        apply_dirs_append_some _ _ _ _
          (apply_dirs_kinds_sorted _ q.kinds hkinds (by rfl)),
        apply_dirs_append_some _ _ _ _
          (apply_dirs_year _ q.year hyear.1 hyear.2 (by rfl)),
        apply_dirs_append_some _ _ _ _
          (apply_dirs_votes _ q.votes hvotes.1 hvotes.2 (by rfl)),
        apply_dirs_append_some _ _ _ _
          (apply_dirs_season _ q.season hseason.1 hseason.2 (by rfl)),
        apply_dirs_append_some _ _ _ _
          (apply_dirs_episode _ q.episode hepisode.1 hepisode.2 (by rfl)),
        apply_dirs_show _ q htv (by rfl)]
    rfl
  unfold query_from_chars
  rw [tokenize_query_to_chars q hwf, parse_tokens_dirs, hdirs]
  dsimp only
  cases hnm : q.name with
  | none =>
      have hnt : name_tail q = [] := by
        unfold name_tail
        rw [hnm]
      rw [hnt]
      show some { q with name := Option.none } = some q
      exact congrArg (fun x => (some { q with name := x } : Option Query)) hnm.symm
  | some nm =>
      obtain ⟨toks, htne, htfacts, hjoin⟩ := hname nm (by rw [hnm]; simp)
      have hnt : name_tail q = ' ' :: join_space toks := by
        unfold name_tail
        rw [hnm, hjoin]
      rw [hnt, tokenize_space_step _ (join_space_head_not_ws toks htfacts),
          tokenize_join_space toks htfacts, parse_tokens_terms toks _ []]
      have htoksne : (([] : List (List Char)) ++ toks).isEmpty = false := by
        rw [List.nil_append]
        cases hc : toks with
        | nil => exact absurd hc htne
        | cons _ _ => rfl
      rw [htoksne]
      show some (Query.withName { q with name := Option.none }
        (join_space ([] ++ toks))) = some q
      unfold Query.withName
      rw [List.nil_append, ← hjoin]
      exact congrArg (fun x => (some { q with name := x } : Option Query)) hnm.symm

/-- C3 witness: the amended round-trip theorem at a concrete query with a
two-word name and two kinds in sorted order. -/
theorem query_roundtrip_witness :
    query_from_chars (query_to_chars
        { Query.new with name := some (str "foo bar"),
                         kinds := [TitleKind.Movie, TitleKind.TVSeries] })
      = some { Query.new with name := some (str "foo bar"),
                              kinds := [TitleKind.Movie, TitleKind.TVSeries] } :=
  query_roundtrip _ (by decide) (by decide)
    ⟨by simp [Query.new, QRange.nullRange], by simp [Query.new, QRange.nullRange]⟩
    ⟨by simp [Query.new, QRange.nullRange], by simp [Query.new, QRange.nullRange]⟩
    ⟨by simp [Query.new, QRange.nullRange], by simp [Query.new, QRange.nullRange]⟩
    ⟨by simp [Query.new, QRange.nullRange], by simp [Query.new, QRange.nullRange]⟩
    (by
      intro nm hnm
      simp only [Option.mem_def, Option.some.injEq] at hnm
      exact ⟨[str "foo", str "bar"], by decide, by decide, by rw [← hnm]; rfl⟩)
    (by intro id hid; simp [Query.new] at hid)

/-! ## C9: empty queries return no results -/

/-- C9: a query with no (or an empty) name and none of the kind, year,
votes, season, episode or tvshow filters is empty, and the top-level search
returns the empty result list for every possible back end — in particular
without consulting the index or the data files. -/
theorem empty_query_returns_nothing {α : Type}
    (exhaustive : Query → List (ScoredQ α))
    (with_name : Query → NameQuery → List (ScoredQ α)) (q : Query)
    (hname : q.name = Option.none ∨ q.name = some [])
    (hkinds : q.kinds = []) (hyear : q.year = QRange.nullRange)
    (hvotes : q.votes = QRange.nullRange)
    (hseason : q.season = QRange.nullRange)
    (hepisode : q.episode = QRange.nullRange)
    (htv : q.tvshow_id = Option.none) :
    q.is_empty = true
    ∧ searcher_search exhaustive with_name q = [] := by
  have hemp : q.is_empty = true := by
    unfold Query.is_empty
    rcases hname with h | h <;>
      simp [h, hkinds, hyear, hvotes, hseason, hepisode, htv,
        QRange.is_none, QRange.nullRange]
  refine ⟨hemp, ?_⟩
  unfold searcher_search
  rw [if_pos hemp]

/-- C9 witness: the empty-query theorem at `Query::new` with back ends that
would return a result if they were ever consulted. -/
theorem empty_query_returns_nothing_witness :
    searcher_search (fun _ => [(⟨1, 0⟩ : ScoredQ Nat)])
      (fun _ _ => [⟨1, 0⟩]) Query.new = [] :=
  (empty_query_returns_nothing (fun _ => [(⟨1, 0⟩ : ScoredQ Nat)])
    (fun _ _ => [⟨1, 0⟩]) Query.new (Or.inl rfl) rfl rfl rfl rfl rfl rfl).2

/-! ## C2: window-ngram emission count -/

/-- C2 counterexample: on the empty string (`n = 0`) the window analyzer
emits no ngram at all, not one as the claim (`max(1, n - size + 1) = 1`)
requires; the repository's own test `ngrams_window(3, "")` asserts the
empty output. -/
theorem iter_window_empty_not_one :
    ¬ (((iter_window 3 ([] : List Char)).length : ℤ)
        = max 1 ((([] : List Char).length : ℤ) - 3 + 1)) := by
  decide

/-- C2 (amended): for every nonempty input of `n` codepoints and every
window size at least 2, `iter_window` emits exactly `max(1, n - size + 1)`
ngrams; when `n < size` the single ngram is the whole string, and when
`n ≥ size` the `i`-th ngram is the window of `size` codepoints starting
at position `i`. -/
theorem iter_window_count (size : Nat) (text : List Char)
    (hsize : 2 ≤ size) (hne : text ≠ []) :
    ((iter_window size text).length : ℤ) = max 1 ((text.length : ℤ) - size + 1)
    ∧ (text.length < size → iter_window size text = [text])
    ∧ (size ≤ text.length → ∀ i < text.length - size + 1,
        (iter_window size text)[i]? = some ((text.drop i).take size)) := by
  have hn : 1 ≤ text.length := List.length_pos.mpr hne
  have hsz : size ≠ 0 := by omega
  unfold iter_window
  simp only [hsz, if_false]
  rcases lt_or_le text.length size with hlt | hge
  · have hmin : min size text.length = text.length := by omega
    rw [hmin]
    have hlen1 : text.length - (text.length - 1) = 1 := by omega
    rw [hlen1]
    have hr1 : List.range 1 = [0] := rfl
    refine ⟨?_, ?_, ?_⟩
    · have hxle : (text.length : ℤ) - size + 1 ≤ 1 := by omega
      rw [hr1, max_eq_left hxle]
      norm_num
    · intro _
      rw [hr1]
      simp only [List.map_cons, List.map_nil, List.drop_zero]
      rw [show text.length - 1 + 1 = text.length from by omega,
          List.take_length]
    · intro h; omega
  · have hmin : min size text.length = size := by omega
    rw [hmin]
    refine ⟨?_, ?_, ?_⟩
    · simp only [List.length_map, List.length_range]
      have h1 : ((text.length - (size - 1) : ℕ) : ℤ)
          = (text.length : ℤ) - size + 1 := by omega
      rw [h1, max_eq_right (by omega)]
    · intro h; omega
    · intro _ i hi
      have hiR : i < text.length - (size - 1) := by omega
      rw [List.getElem?_map, List.getElem?_range hiR,
          show size - 1 + 1 = size from by omega]
      rfl

/-- C2 witness: the amended count theorem instantiated on a concrete
4-codepoint string with window size 3. -/
theorem iter_window_count_witness :
    ((iter_window 3 (str "abcd")).length : ℤ)
      = max 1 (((str "abcd").length : ℤ) - 3 + 1) :=
  (iter_window_count 3 (str "abcd") (by norm_num) (by decide)).1

/-! ## C5: docid allocation boundary -/

/-- C5 counterexample: the insert that is assigned docid `2^28 - 1`
(which is at most `2^28 - 1`) fails with the capacity error, so the claim's
"every insert whose assigned docid is at most `2^28 - 1` succeeds" is false
at the boundary. -/
theorem next_docid_at_max_fails :
    (2 ^ 28 - 1 ≤ 2 ^ 28 - 1) ∧ next_docid (2 ^ 28 - 1) = none := by
  constructor
  · exact le_refl _
  · decide

/-- Closed form of `next_docid` on valid u32 counters. -/
theorem next_docid_eq (cur : Nat) (hcur : cur < 2 ^ 32) :
    next_docid cur
      = if cur < MAX_DOC_ID then some (cur, cur + 1) else none := by
  unfold next_docid checked_add_u32 MAX_DOC_ID
  rcases lt_or_le cur (2 ^ 32 - 1) with hlt | hge
  · rw [if_pos (show cur + 1 < 2 ^ 32 by omega)]
    show (if cur + 1 > 2 ^ 28 - 1 then none else some (cur, cur + 1)) = _
    rcases lt_or_le cur (2 ^ 28 - 1) with h2 | h2
    · rw [if_neg (by omega), if_pos h2]
    · rw [if_pos (by omega), if_neg (by omega)]
  · have hcur' : cur = 2 ^ 32 - 1 := by omega
    subst hcur'
    rw [if_neg (by omega)]
    show (none : Option (Nat × Nat)) = _
    rw [if_neg (by norm_num)]

/-- C5 (amended): docids are assigned in strictly increasing order starting
from the current counter, and the insert assigned docid `d` succeeds if and
only if `d` is at most `2^28 - 2`, failing with the capacity error exactly
when `d ≥ 2^28 - 1`. -/
theorem next_docid_spec (cur : Nat) (hcur : cur < 2 ^ 32) :
    (next_docid cur = some (cur, cur + 1) ↔ cur < MAX_DOC_ID)
    ∧ (next_docid cur = none ↔ MAX_DOC_ID ≤ cur) := by
  rw [next_docid_eq cur hcur]
  rcases lt_or_le cur MAX_DOC_ID with h | h
  · rw [if_pos h]
    constructor
    · simp [h]
    · simp; omega
  · rw [if_neg (by omega)]
    constructor
    · simp; omega
    · simp [h]

/-- C5 witness: the amended allocation theorem instantiated at counter 5. -/
theorem next_docid_spec_witness : next_docid 5 = some (5, 6) :=
  ((next_docid_spec 5 (by norm_num)).1).mpr (by norm_num [MAX_DOC_ID])

/-! ## C6: posting packing -/

/-- Arithmetic characterization of the packed posting:
`(min 15 f) <<< 28 ||| d = (min 15 f) * 2^28 + d` for in-range docids. -/
theorem pack_posting_eq (docid frequency : Nat) (hd : docid ≤ MAX_DOC_ID) :
    pack_posting docid frequency = min 15 frequency * 2 ^ 28 + docid := by
  unfold pack_posting
  unfold MAX_DOC_ID at hd
  set f := min 15 frequency with hf
  set v := (f <<< 28) ||| docid with hv
  have hd' : docid < 2 ^ 28 := by omega
  have hmod : v % 2 ^ 28 = docid := by
    rw [← Nat.and_pow_two_sub_one_eq_mod v 28, hv, Nat.and_distrib_right,
        Nat.and_pow_two_sub_one_eq_mod, Nat.and_pow_two_sub_one_eq_mod,
        Nat.shiftLeft_eq, Nat.mul_mod_left, Nat.mod_eq_of_lt hd']
    simp
  have hdiv : v / 2 ^ 28 = f := by
    rw [← Nat.shiftRight_eq_div_pow]
    apply Nat.eq_of_testBit_eq
    intro i
    rw [Nat.testBit_shiftRight, hv, Nat.testBit_lor, Nat.testBit_shiftLeft]
    have h28 : 28 ≤ 28 + i := by omega
    have hdt : docid.testBit (28 + i) = false := by
      apply Nat.testBit_lt_two_pow
      calc docid < 2 ^ 28 := hd'
        _ ≤ 2 ^ (28 + i) := Nat.pow_le_pow_right (by norm_num) (by omega)
    simp [h28, hdt]
  have := Nat.div_add_mod v (2 ^ 28)
  omega

/-- C6: for every docid at most `2^28 - 1` and every frequency, the packed
u32 round-trips through little-endian serialization, decodes back to exactly
the original docid and to the frequency saturated at 15, and equals the
value with the saturated frequency in bits 31..28 and the docid in
bits 27..0. -/
theorem posting_roundtrip (docid frequency : Nat) (hd : docid ≤ MAX_DOC_ID) :
    read_u32_le (u32_le (pack_posting docid frequency))
        = some (pack_posting docid frequency)
    ∧ posting_docid (pack_posting docid frequency) = docid
    ∧ posting_frequency (pack_posting docid frequency) = min frequency 15
    ∧ pack_posting docid frequency = min frequency 15 * 2 ^ 28 + docid := by
  have hkey := pack_posting_eq docid frequency hd
  have hmin : min 15 frequency = min frequency 15 := Nat.min_comm ..
  rw [hmin] at hkey
  have hf : min frequency 15 ≤ 15 := Nat.min_le_right ..
  have hd' : docid < 2 ^ 28 := by
    have hM : MAX_DOC_ID = 2 ^ 28 - 1 := rfl
    omega
  have hv : pack_posting docid frequency < 2 ^ 32 := by
    rw [hkey]; omega
  refine ⟨?_, ?_, ?_, hkey⟩
  · generalize hw : pack_posting docid frequency = w at hv
    simp only [u32_le, read_u32_le]
    congr 1
    omega
  · unfold posting_docid
    have hM : MAX_DOC_ID = 2 ^ 28 - 1 := rfl
    rw [hM, Nat.and_pow_two_sub_one_eq_mod, hkey]
    omega
  · unfold posting_frequency
    rw [Nat.shiftRight_eq_div_pow, hkey]
    omega

/-- C6 witness: the packing theorem instantiated at docid 77, frequency 200
(saturating to 15). -/
theorem posting_roundtrip_witness :
    posting_docid (pack_posting 77 200) = 77
    ∧ posting_frequency (pack_posting 77 200) = min 200 15 :=
  ⟨(posting_roundtrip 77 200 (by norm_num [MAX_DOC_ID])).2.1,
   (posting_roundtrip 77 200 (by norm_num [MAX_DOC_ID])).2.2.1⟩

/-! ## C4: episode key round trip -/

/-- Reading an optional big-endian u32 back from its serialization. -/
theorem from_optional_u32_be (x : Nat) (hx : x < 2 ^ 32) (tail : List Nat) :
    from_optional_u32 (u32_be x ++ tail)
      = some (if x = 2 ^ 32 - 1 then none else some x) := by
  unfold u32_be
  simp only [List.cons_append, List.nil_append]
  simp only [from_optional_u32]
  have hX : ((x / 2 ^ 24 % 256 * 256 + x / 2 ^ 16 % 256) * 256
      + x / 2 ^ 8 % 256) * 256 + x % 256 = x := by omega
  rw [hX]

/-- Dropping the four bytes of a big-endian u32. -/
theorem u32_be_drop (x : Nat) (tail : List Nat) :
    (u32_be x ++ tail).drop 4 = tail := by
  unfold u32_be
  simp

/-- C4: for every episode whose tvshow id has no NUL byte and whose season
and episode numbers, when present, are valid u32 values different from
`u32::MAX`, encoding to a seasons-index key succeeds and decoding the key
returns the original episode. -/
theorem episode_roundtrip (ep : Episode)
    (hnul : ∀ b ∈ ep.tvshow_id, b ≠ 0)
    (hs : ∀ x ∈ ep.season, x < 2 ^ 32 - 1)
    (he : ∀ x ∈ ep.episode, x < 2 ^ 32 - 1) :
    ∃ bs, write_episode ep = some bs ∧ read_episode bs = some ep := by
  have hany : ep.tvshow_id.any (fun b => b = 0) = false := by
    rw [List.any_eq_false]
    intro b hb
    simpa using hnul b hb
  obtain ⟨s, hsv, hsbound, hsdec⟩ :
      ∃ s, to_optional_season ep = some s ∧ s < 2 ^ 32
        ∧ (if s = 2 ^ 32 - 1 then none else some s) = ep.season := by
    cases hse : ep.season with
    | none =>
        exact ⟨2 ^ 32 - 1, by simp [to_optional_season, hse],
          by norm_num, by simp⟩
    | some x =>
        have hx : x < 2 ^ 32 - 1 := hs x (by simp [hse])
        have hx' : ¬ (x = 2 ^ 32 - 1) := by omega
        refine ⟨x, ?_, by omega, by rw [if_neg hx']⟩
        simp only [to_optional_season, hse]
        rw [if_neg hx']
  obtain ⟨e, hev, hebound, hedec⟩ :
      ∃ e, to_optional_epnum ep = some e ∧ e < 2 ^ 32
        ∧ (if e = 2 ^ 32 - 1 then none else some e) = ep.episode := by
    cases hee : ep.episode with
    | none =>
        exact ⟨2 ^ 32 - 1, by simp [to_optional_epnum, hee],
          by norm_num, by simp⟩
    | some x =>
        have hx : x < 2 ^ 32 - 1 := he x (by simp [hee])
        have hx' : ¬ (x = 2 ^ 32 - 1) := by omega
        refine ⟨x, ?_, by omega, by rw [if_neg hx']⟩
        simp only [to_optional_epnum, hee]
        rw [if_neg hx']
  refine ⟨ep.tvshow_id ++ [0] ++ u32_be s ++ u32_be e ++ ep.id, ?_, ?_⟩
  · unfold write_episode
    rw [hany, hsv, hev]
    simp
  · have hrest :
        ep.tvshow_id ++ [0] ++ u32_be s ++ u32_be e ++ ep.id
          = ep.tvshow_id ++ 0 :: (u32_be s ++ (u32_be e ++ ep.id)) := by
      simp
    rw [hrest]
    unfold read_episode
    have hp : ∀ b ∈ ep.tvshow_id, (fun b => decide (b ≠ 0)) b = true := by
      intro b hb
      simpa using hnul b hb
    rw [takeWhile_append_sat _ _ 0 _ hp (by simp),
        dropWhile_append_sat _ _ 0 _ hp (by simp)]
    show (match from_optional_u32 (u32_be s ++ (u32_be e ++ ep.id)),
            from_optional_u32 ((u32_be s ++ (u32_be e ++ ep.id)).drop 4) with
          | some season, some epnum =>
              some (Episode.mk ((u32_be s ++ (u32_be e ++ ep.id)).drop 8)
                ep.tvshow_id season epnum)
          | _, _ => none) = some ep
    rw [from_optional_u32_be s hsbound, u32_be_drop,
        from_optional_u32_be e hebound, hsdec, hedec]
    show some (Episode.mk ((u32_be s ++ (u32_be e ++ ep.id)).drop 8)
        ep.tvshow_id ep.season ep.episode) = some ep
    have hdrop8 : (u32_be s ++ (u32_be e ++ ep.id)).drop 8 = ep.id := by
      unfold u32_be
      simp
    rw [hdrop8]

/-- C4 witness: a concrete episode with a present season, an absent episode
number and nonempty ids round-trips through the seasons key. -/
theorem episode_roundtrip_witness :
    ∃ bs, write_episode ⟨[116, 116, 49], [116, 116, 55], some 3, none⟩ = some bs
      ∧ read_episode bs = some ⟨[116, 116, 49], [116, 116, 55], some 3, none⟩ :=
  episode_roundtrip ⟨[116, 116, 49], [116, 116, 55], some 3, none⟩
    (by decide) (by decide) (by decide)

/-! ## C7: score normalization -/

/-- C7: on a nonempty result list, if the raw top score is positive then
after `normalize` the first score is exactly 1, values and positions are
unchanged, and the relative order of any two scores is unchanged; if the raw
top score is zero, the list is left entirely unchanged. -/
theorem normalize_spec {α : Type} (rs : List (ScoredQ α)) (r0 : ScoredQ α)
    (h0 : rs.head? = some r0) :
    (0 < r0.score →
      (normalize rs).head?.map ScoredQ.score = some 1
      ∧ (∀ i : Nat, ((normalize rs)[i]?).map ScoredQ.value
          = (rs[i]?).map ScoredQ.value)
      ∧ ∀ (i j : Nat) (a b a' b' : ScoredQ α),
          rs[i]? = some a → rs[j]? = some b →
          (normalize rs)[i]? = some a' → (normalize rs)[j]? = some b' →
          (a'.score ≤ b'.score ↔ a.score ≤ b.score))
    ∧ (r0.score = 0 → normalize rs = rs) := by
  have hN : normalize rs
      = if r0.score = 0 then rs
        else rs.map (fun r => ⟨r.score / r0.score, r.value⟩) := by
    unfold normalize
    rw [h0]
  rw [hN]
  constructor
  · intro hpos
    have hne : ¬ (r0.score = 0) := by positivity
    rw [if_neg hne]
    refine ⟨?_, ?_, ?_⟩
    · rw [List.head?_map, h0]
      simp only [Option.map_map, Option.map_some]
      show some (r0.score / r0.score) = some 1
      rw [div_self hne]
    · intro i
      rw [List.getElem?_map]
      cases rs[i]? <;> rfl
    · intro i j a b a' b' ha hb ha' hb'
      rw [List.getElem?_map, ha] at ha'
      rw [List.getElem?_map, hb] at hb'
      have ha'' : a' = ⟨a.score / r0.score, a.value⟩ := by
        simpa using ha'.symm
      have hb'' : b' = ⟨b.score / r0.score, b.value⟩ := by
        simpa using hb'.symm
      rw [ha'', hb'']
      exact div_le_div_iff_of_pos_right hpos
  · intro hz
    rw [if_pos hz]

/-- C7 witness: normalization of a concrete two-element result list with
positive top score, via the theorem. -/
theorem normalize_spec_witness :
    (normalize [(⟨4, 0⟩ : ScoredQ Nat), ⟨1, 1⟩]).head?.map ScoredQ.score
      = some 1 :=
  (((normalize_spec [(⟨4, 0⟩ : ScoredQ Nat), ⟨1, 1⟩] ⟨4, 0⟩ rfl).1)
    (by norm_num)).1

/-! ## C1: top-K collection and the best-score claim -/

/-- C1: evaluating `CollectTopK::collect` on the failing input. The stream
yields docid 0 (score 4, nameid 7), docid 1 (score 1, nameid 9) and then
docid 2 (score 2, nameid 9): the later, better score for nameid 9 only
updates the `byid` side map, never the heap entry that is actually
returned, so the reported (normalized) score for nameid 9 is `1/4` — the
first collected score divided by the top score — and not `2/4 = 1/2` as the
claim requires. -/
theorem collect_keeps_first_score :
    collect 10 (fun d => if d = 0 then 7 else 9)
        [⟨4, 0⟩, ⟨1, 1⟩, ⟨2, 2⟩]
      = [⟨1, 7⟩, ⟨1 / 4, 9⟩]
    ∧ ¬ ((1 : ℚ) / 4 = 2 / 4) := by
  constructor
  · norm_num [collect, collect_step, lookupById, insertById, removeById,
      heapPeekMin, drainAux, from_min_heap, normalize, ScoredQ.map,
      List.foldl, List.erase_cons]
  · norm_num

/-! ## C10: scores are never NaN -/

/-- C10: `set_score` (and through it `with_score` and `map_score`) panics
exactly on non-finite scores, every score actually stored is finite
(`Scored::new` starts at the finite score 1), and on finite scores the
`partial_cmp` used inside `impl Ord for Scored` always returns `some`, so
the `unwrap` is unreachable and comparison is total. -/
theorem scored_never_nan {α : Type} :
    (∀ (s : ScoredF α) (sc : F64),
        s.set_score sc = none ↔ sc.is_finite = false)
    ∧ (∀ (s : ScoredF α) (sc : F64) (s' : ScoredF α),
        s.set_score sc = some s' → s'.score.is_finite = true)
    ∧ (∀ v : α, (ScoredF.new v).score.is_finite = true)
    ∧ (∀ s1 s2 : ScoredF α,
        s1.score.is_finite = true → s2.score.is_finite = true →
        ∃ o, s1.cmp s2 = some o) := by
  refine ⟨?_, ?_, ?_, ?_⟩
  · intro s sc
    unfold ScoredF.set_score
    cases hf : sc.is_finite <;> simp [hf]
  · intro s sc s' h
    unfold ScoredF.set_score at h
    cases hf : sc.is_finite with
    | true =>
        rw [if_pos hf] at h
        cases h
        exact hf
    | false =>
        rw [if_neg (by simp [hf])] at h
        cases h
  · intro v
    rfl
  · intro s1 s2 h1 h2
    unfold ScoredF.cmp F64.partial_cmp
    cases hs1 : s1.score with
    | finite q1 =>
        cases hs2 : s2.score with
        | finite q2 => exact ⟨compare q1 q2, rfl⟩
        | nan => rw [hs2] at h2; cases h2
        | inf => rw [hs2] at h2; cases h2
        | neginf => rw [hs2] at h2; cases h2
    | nan => rw [hs1] at h1; cases h1
    | inf => rw [hs1] at h1; cases h1
    | neginf => rw [hs1] at h1; cases h1

/-- C10 witness: comparison of two concrete finite-scored values through the
theorem. -/
theorem scored_never_nan_witness :
    ∃ o, ScoredF.cmp ⟨F64.finite 1, (0 : Nat)⟩ ⟨F64.finite 2, 1⟩ = some o :=
  (scored_never_nan (α := Nat)).2.2.2 ⟨F64.finite 1, 0⟩ ⟨F64.finite 2, 1⟩
    rfl rfl

/-! ## C8: the auxiliary disjunction never introduces docids -/

/-- Every searcher pull yields exactly the docid pulled from the primary
disjunction, whatever the auxiliary state is. -/
theorem searcherRun_fst_eq (docLen : Nat → ℚ) :
    ∀ (n : Nat) (s : NameSearcher),
      (searcherRun docLen n s).map Prod.fst
        = (disjRun docLen n s.primary).map Prod.fst := by
  intro n
  induction n with
  | zero => intro s; rfl
  | succ n ih =>
      intro s
      rcases h1 : Disjunction.next docLen s.primary with ⟨o, p'⟩
      cases o with
      | none => simp [searcherRun, disjRun, searcherNext, h1]
      | some sc =>
          rcases h2 : Disjunction.skip_to docLen s.high sc.1 with ⟨o2, h'⟩
          cases o2 with
          | none => simp [searcherRun, disjRun, searcherNext, h1, h2, ih]
          | some other =>
              simp [searcherRun, disjRun, searcherNext, h1, h2, ih]

/-- C8: for every partition of the query ngrams into low-frequency and
high-frequency posting iterators, the searcher built by `Searcher::new`
yields exactly the docid sequence of its primary disjunction alone: the
auxiliary high-frequency disjunction only ever adds score contributions
and never introduces (nor removes) a docid. -/
theorem searcher_docids_eq_primary (docLen : Nat → ℚ) (query_len : ℚ)
    (scorer : NameScorer) (low high : List (List (Nat × ℚ))) (n : Nat) :
    (searcherRun docLen n (searcherNew query_len scorer low high)).map
        Prod.fst
      = (disjRun docLen n
          (searcherNew query_len scorer low high).primary).map Prod.fst :=
  searcherRun_fst_eq docLen n (searcherNew query_len scorer low high)

end ImdbIndex
